import Mathlib

/-!
# Worker `APIServer`: datum processing

A shallow embedding of `src/server/pkg/worker/api_server.go`
(`downloadData`, `runUserCode`, `uploadOutput`, `Process`).

Everything the file calls but does not define (the pfs client, `filesync.Pull`,
`os`, `os/exec`, `filepath`, `hashtree`, `ppsserver.HashDatum`, the constants of
package `client`) is a parameter: the pure library parts are collected in `Deps`,
the answers of the operating system and of the object store in `World`.
Each function returns the list of external calls it made, in order, together
with its Go result.
-/

namespace Worker

/-! ## Data -/

/-- A Go `error` value, identified by its message. -/
structure GoError where
  msg : String
deriving DecidableEq, Repr

/-- How a Go call ends: it returns a value, it panics in the calling goroutine
(deferred calls of the callers still run), or the process is taken down by a
panic in another goroutine. -/
inductive Outcome (α : Type) where
  | ret (a : α)
  | panic
  | crash
deriving DecidableEq, Repr

/-- The `pfs.FileInfo` of one datum input; only passed through by this file. -/
structure PfsFileInfo where
  path : String
  hash : String
deriving DecidableEq, Repr

/-- One `pps.PipelineInput`: fields `Name` and `Lazy`. -/
structure PipelineInput where
  Name : String
  Lazy : Bool
deriving DecidableEq, Repr

/-- The `pps.Transform`: fields `Cmd`, `Stdin`, `AcceptReturnCode` (`[]int64`). -/
structure Transform where
  Cmd : List String
  Stdin : List String
  AcceptReturnCode : List Int
deriving DecidableEq, Repr

/-- The `pps.PipelineInfo` fields read by the worker; the `Transform` pointer is
taken to be non-nil. -/
structure PipelineInfo where
  Inputs : List PipelineInput
  Transform : Transform
deriving DecidableEq, Repr

/-- A `pfs.BlockRef`. -/
structure BlockRef where
  hash : String
  lower : Nat
  upper : Nat
deriving DecidableEq, Repr

/-- The `pfs.BlockRefs` message returned by `PutBlock`. -/
structure BlockRefs where
  BlockRef : List BlockRef
deriving DecidableEq, Repr

/-- A `syscall.WaitStatus`: the process exited with a code, or it did not exit
(it was killed by a signal, stopped, ...). -/
inductive WaitStatus where
  | exited (code : Nat)
  | signaled (sig : Nat)
deriving DecidableEq, Repr

/-- The method `WaitStatus.ExitStatus()`: the exit code, or `-1` when the process
did not exit. -/
def WaitStatus.ExitStatus : WaitStatus → Int
  | .exited code => (code : Int)
  | .signaled _ => -1

/-- What `exiterr.Sys()` holds: a `syscall.WaitStatus`, or a value of another type. -/
inductive SysValue where
  | waitStatus (status : WaitStatus)
  | other
deriving DecidableEq, Repr

/-- A non-nil error of `cmd.Run()`: an `*exec.ExitError` (the command started and
did not complete successfully), or any other error (the command could not be
started, a stream could not be copied). -/
inductive RunError where
  | exitError (sys : SysValue) (msg : String)
  | otherError (msg : String)
deriving DecidableEq, Repr

/-- The method `Error()` of the error returned by `cmd.Run()`. -/
def RunError.Error : RunError → String
  | .exitError _ msg => msg
  | .otherError msg => msg

/-- An `os.FileInfo`, of which only `IsDir()` is read. -/
structure OsFileInfo where
  IsDir : Bool
deriving DecidableEq, Repr

/-- One call that `filepath.Walk` makes to its walk function: the arguments
`path`, `info` (nil when the entry could not be lstat-ed) and `err`. -/
structure WalkCall where
  path : String
  info : Option OsFileInfo
  err : Option GoError
deriving DecidableEq, Repr

/-- An open `*os.File`. -/
structure OsFile where
  name : String
  content : List Nat
deriving DecidableEq, Repr

/-- The `ProcessRequest`: the datum. -/
structure ProcessRequest where
  Data : List PfsFileInfo
deriving DecidableEq, Repr

/-- The `ProcessResponse`: the tag (a `pfs.Tag` has the single field `Name`). -/
structure ProcessResponse where
  Tag : String
deriving DecidableEq, Repr

/-- The external calls the worker makes, as they appear in its trace. The calls
of the upload step carry the error they returned (`none` for nil). -/
inductive Event where
  | lock
  | unlock
  | pull (dest : String) (datum : PfsFileInfo) (lazy : Bool)
  | mkdirAll (path : String) (perm : Nat)
  | run (name : String) (args : List String) (stdin : String)
  | stderr (text : String)
  | osOpen (path : String) (err : Option GoError)
  | putBlock (file : OsFile) (err : Option GoError)
  | osClose (file : OsFile) (err : Option GoError)
  | treePutDir (path : String) (err : Option GoError)
  | treePutFile (path : String) (refs : List BlockRef) (err : Option GoError)
  | putObject (bytes : List Nat) (key : String)
  | log (req : ProcessRequest) (resp : Option ProcessResponse) (err : Option GoError)
      (duration : Nat)
deriving DecidableEq, Repr

/-- The parts of other packages that the worker calls and that are pure:
the two path constants of package `client`, `filepath.Join` and `filepath.Rel`,
the open hash tree of package `hashtree` (type `τ`, finished tree `φ`) and
`ppsserver.HashDatum`. `PutDir` and `PutFile` return the mutated tree and their
`error`. -/
structure Deps (τ φ : Type) where
  PPSInputPrefix : String
  PPSOutputPath : String
  Join : String → String → String
  Rel : String → String → Except GoError String
  NewHashTree : τ
  PutDir : τ → String → τ × Option GoError
  PutFile : τ → String → List BlockRef → τ × Option GoError
  Finish : τ → Except GoError φ
  Serialize : φ → Except GoError (List Nat)
  HashDatum : List PfsFileInfo → PipelineInfo → Except GoError String

/-- The answers of the world outside the worker during one call: the clock, the
pfs client (`filesync.Pull`, `PutBlock`, `PutObject`), the operating system
(`os.MkdirAll`, `cmd.Run`, the calls `filepath.Walk` makes, `os.Open`,
`f.Close`) and the order `sched` in which the goroutines of the errgroup run.
Each answer is a function of the arguments of the call. -/
structure World where
  Now : Nat
  Since : Nat → Nat
  Pull : String → PfsFileInfo → Bool → Option GoError
  MkdirAll : String → Nat → Option GoError
  Run : String → List String → String → Option RunError
  Walk : String → List WalkCall
  sched : List Nat
  Open : String → Except GoError OsFile
  PutBlock : OsFile → Except GoError BlockRefs
  Close : OsFile → Option GoError
  PutObject : List Nat → String → Option GoError

/-! ## `downloadData` -/

/-- The loop of `downloadData` from index `i` on: `Inputs[i]` panics when `i` is
out of range; the first failing `Pull` ends the loop with its error. -/
def downloadFrom {τ φ : Type} (d : Deps τ φ) (w : World) (pi : PipelineInfo) :
    Nat → List PfsFileInfo → List Event × Outcome (Option GoError)
  | _, [] => ([], .ret none)
  | i, datum :: rest =>
    match pi.Inputs[i]? with
    | none => ([], .panic)
    | some input =>
      let dest := d.Join d.PPSInputPrefix input.Name
      match w.Pull dest datum input.Lazy with
      | some err => ([.pull dest datum input.Lazy], .ret (some err))
      | none =>
        let r := downloadFrom d w pi (i + 1) rest
        (.pull dest datum input.Lazy :: r.1, r.2)

/-- `APIServer.downloadData`. -/
def downloadData {τ φ : Type} (d : Deps τ φ) (w : World) (pi : PipelineInfo)
    (data : List PfsFileInfo) : List Event × Outcome (Option GoError) :=
  downloadFrom d w pi 0 data

/-! ## `runUserCode` -/

/-- The loop over `transform.AcceptReturnCode`: `success` becomes true when a
return code equals the exit status (`int(returnCode)` is the identity on the
64-bit platforms the worker runs on). -/
def acceptLoop (codes : List Int) (exitStatus : Int) (success : Bool) : Bool :=
  codes.foldl (fun s returnCode => if returnCode == exitStatus then true else s) success

/-- The value of the variable `success` of `runUserCode` when `cmd.Run()`
returned `runErr`. -/
def runSuccess (transform : Transform) (runErr : Option RunError) : Bool :=
  match runErr with
  | none => true
  | some (.exitError (.waitStatus status) _) =>
    acceptLoop transform.AcceptReturnCode status.ExitStatus false
  | some _ => false

/-- `APIServer.runUserCode`: `transform.Cmd[0]` panics on an empty command; the
error of `cmd.Run()` is only written to standard error. -/
def runUserCode {τ φ : Type} (d : Deps τ φ) (w : World) (pi : PipelineInfo) :
    List Event × Outcome (Option GoError) :=
  match w.MkdirAll d.PPSOutputPath 438 with
  | some err => ([.mkdirAll d.PPSOutputPath 438], .ret (some err))
  | none =>
    let transform := pi.Transform
    match transform.Cmd with
    | [] => ([.mkdirAll d.PPSOutputPath 438], .panic)
    | name :: args =>
      let stdin := "\n".intercalate transform.Stdin ++ "\n"
      match w.Run name args stdin with
      | none => ([.mkdirAll d.PPSOutputPath 438, .run name args stdin], .ret none)
      | some err =>
        if runSuccess transform (some err) then
          ([.mkdirAll d.PPSOutputPath 438, .run name args stdin], .ret none)
        else
          ([.mkdirAll d.PPSOutputPath 438, .run name args stdin,
            .stderr ("Error from exec: " ++ err.Error ++ "\n")], .ret none)

/-! ## `uploadOutput` -/

/-- The function literal passed to `g.Go` for one walk call, run against the
current tree. Its local `lock` is held around the tree insertion only. The
result of `tree.PutDir` is discarded by the source; `info.IsDir()` panics when
`info` is nil. The deferred `f.Close()` replaces a nil result by its own error. -/
def entryTask {τ φ : Type} (d : Deps τ φ) (w : World) (call : WalkCall) (tree : τ) :
    List Event × τ × Outcome (Option GoError) :=
  if call.path = d.PPSOutputPath then ([], tree, .ret none)
  else
    match d.Rel d.PPSOutputPath call.path with
    | .error err => ([], tree, .ret (some err))
    | .ok relPath =>
      match call.info with
      | none => ([], tree, .panic)
      | some info =>
        if info.IsDir then
          let r := d.PutDir tree relPath
          ([.treePutDir relPath r.2], r.1, .ret none)
        else
          match w.Open call.path with
          | .error err => ([.osOpen call.path (some err)], tree, .ret (some err))
          | .ok f =>
            match w.PutBlock f with
            | .error err =>
              ([.osOpen call.path none, .putBlock f (some err), .osClose f (w.Close f)], tree,
                .ret (some err))
            | .ok blockRefs =>
              let r := d.PutFile tree relPath blockRefs.BlockRef
              ([.osOpen call.path none, .putBlock f none,
                .treePutFile relPath blockRefs.BlockRef r.2, .osClose f (w.Close f)], r.1,
                .ret (match r.2 with
                      | some err => some err
                      | none => w.Close f))

/-- The walk of `filepath.Walk`: the walk function is called for each call of the
listing in turn, and the first error it returns ends the walk. -/
def Walk {σ : Type} (walkFn : WalkCall → σ → σ × Option GoError) :
    List WalkCall → σ → σ × Option GoError
  | [], s => (s, none)
  | call :: calls, s =>
    match walkFn call s with
    | (s', some err) => (s', some err)
    | (s', none) => Walk walkFn calls s'

/-- The walk function of `uploadOutput`: it starts one goroutine for the call
(`g.Go`) and returns nil, ignoring its `err` argument. The state is the list of
goroutines started so far. -/
def walkFn (call : WalkCall) (started : List WalkCall) : List WalkCall × Option GoError :=
  (started ++ [call], none)

/-- The order in which the started goroutines run: at each step the scheduler
picks one of those still waiting (choice `k` picks number `k` modulo how many
wait); when its choices are used up the rest run in the order they were
started. -/
def schedule {α : Type} : List Nat → List α → List α
  | [], ts => ts
  | _ :: _, [] => []
  | k :: ks, t :: ts =>
    (t :: ts).getD (k % (ts.length + 1)) t ::
      schedule ks ((t :: ts).eraseIdx (k % (ts.length + 1)))

/-- The goroutines of the errgroup, run one after the other in the given order
against the shared tree: the answers of the world do not depend on how the
goroutines interleave and the tree is touched under the lock only, so a run is
determined by the order in which the goroutines take their turn. `gerr` is the
error of the group, set by the first goroutine that returns one (`errOnce`); a
goroutine that panics takes the process down. -/
def runTasks {τ φ : Type} (d : Deps τ φ) (w : World) :
    List WalkCall → τ → Option GoError → List Event × τ × Outcome (Option GoError)
  | [], tree, gerr => ([], tree, .ret gerr)
  | call :: calls, tree, gerr =>
    match entryTask d w call tree with
    | (ev, tree', .ret r) =>
      let rest := runTasks d w calls tree'
        (match gerr with
         | some err => some err
         | none => r)
      (ev ++ rest.1, rest.2.1, rest.2.2)
    | (ev, tree', _) => (ev, tree', .crash)

/-- `APIServer.uploadOutput`: the Go result `(hash, nil)` is `.ok hash`, the
result `("", err)` is `.error err`. `g.Wait()` returns the error of the group
once all goroutines have returned. -/
def uploadOutput {τ φ : Type} (d : Deps τ φ) (w : World) (pi : PipelineInfo)
    (data : List PfsFileInfo) : List Event × Outcome (Except GoError String) :=
  let tree := d.NewHashTree
  match Walk walkFn (w.Walk d.PPSOutputPath) [] with
  | (started, some err) =>
    match runTasks d w (schedule w.sched started) tree none with
    | (ev, _, .ret _) => (ev, .ret (.error err))
    | (ev, _, _) => (ev, .crash)
  | (started, none) =>
    match runTasks d w (schedule w.sched started) tree none with
    | (ev, _, .panic) => (ev, .crash)
    | (ev, _, .crash) => (ev, .crash)
    | (ev, _, .ret (some err)) => (ev, .ret (.error err))
    | (ev, tree', .ret none) =>
      match d.Finish tree' with
      | .error err => (ev, .ret (.error err))
      | .ok finTree =>
        match d.Serialize finTree with
        | .error err => (ev, .ret (.error err))
        | .ok treeBytes =>
          match d.HashDatum data pi with
          | .error err => (ev, .ret (.error err))
          | .ok hash =>
            match w.PutObject treeBytes hash with
            | some err => (ev ++ [.putObject treeBytes hash], .ret (.error err))
            | none => (ev ++ [.putObject treeBytes hash], .ret (.ok hash))

/-! ## `Process` -/

/-- The statements of `Process` after `a.Lock()`: download, run, upload, each
error returned at once. -/
def processBody {τ φ : Type} (d : Deps τ φ) (w : World) (pi : PipelineInfo)
    (req : ProcessRequest) :
    List Event × Outcome (Option ProcessResponse × Option GoError) :=
  match downloadData d w pi req.Data with
  | (ev1, .panic) => (ev1, .panic)
  | (ev1, .crash) => (ev1, .crash)
  | (ev1, .ret (some err)) => (ev1, .ret (none, some err))
  | (ev1, .ret none) =>
    match runUserCode d w pi with
    | (ev2, .panic) => (ev1 ++ ev2, .panic)
    | (ev2, .crash) => (ev1 ++ ev2, .crash)
    | (ev2, .ret (some err)) => (ev1 ++ ev2, .ret (none, some err))
    | (ev2, .ret none) =>
      match uploadOutput d w pi req.Data with
      | (ev3, .panic) => (ev1 ++ ev2 ++ ev3, .panic)
      | (ev3, .crash) => (ev1 ++ ev2 ++ ev3, .crash)
      | (ev3, .ret (.error err)) => (ev1 ++ ev2 ++ ev3, .ret (none, some err))
      | (ev3, .ret (.ok tag)) => (ev1 ++ ev2 ++ ev3, .ret (some { Tag := tag }, none))

/-- `APIServer.Process`. The deferred calls run last-registered first when the
body returns or panics: first `a.Unlock()`, then the closure calling `a.Log`
with the named results `resp` and `retErr` (both nil on a panic). The start time
is taken before `a.Lock()`. -/
def Process {τ φ : Type} (d : Deps τ φ) (w : World) (pi : PipelineInfo)
    (req : ProcessRequest) :
    List Event × Outcome (Option ProcessResponse × Option GoError) :=
  let start := w.Now
  match processBody d w pi req with
  | (ev, .crash) => (.lock :: ev, .crash)
  | (ev, .panic) =>
    (.lock :: ev ++ [.unlock, .log req none none (w.Since start)], .panic)
  | (ev, .ret (resp, retErr)) =>
    (.lock :: ev ++ [.unlock, .log req resp retErr (w.Since start)], .ret (resp, retErr))

/-! ## Two concurrent calls of `Process` -/

/-- The two goroutines that call `Process` on the same `APIServer`. -/
inductive Caller where
  | first
  | second
deriving DecidableEq, Repr

/-- A run of two concurrent calls is an interleaving of their events:
`isInterleaving a b run` says that `run` consists of the events `a` of the first
call and the events `b` of the second call, each call's events in their own
order and tagged with their caller. -/
def isInterleaving : List Event → List Event → List (Caller × Event) → Bool
  | a, b, [] => a.isEmpty && b.isEmpty
  | a, b, (.first, e) :: run =>
    match a with
    | [] => false
    | e' :: a' => decide (e = e') && isInterleaving a' b run
  | a, b, (.second, e) :: run =>
    match b with
    | [] => false
    | e' :: b' => decide (e = e') && isInterleaving a b' run

/-- The `sync.Mutex` embedded in the `APIServer`, along a run: `a.Lock()` returns
only while the mutex is unlocked and locks it, `a.Unlock()` unlocks it.
`locked` is the state of the mutex before the run. -/
def mutexRespected : Bool → List (Caller × Event) → Bool
  | _, [] => true
  | locked, (_, e) :: run =>
    if e = .lock then !locked && mutexRespected true run
    else if e = .unlock then mutexRespected false run
    else mutexRespected locked run

/-! ## Statements about the code -/

/-- What `cmd.Run()` returns for a transform process that exits with code `c`:
nil for code 0, an `*exec.ExitError` holding the wait status otherwise. -/
def exitResult (c : Nat) : Option RunError :=
  if c = 0 then none
  else some (.exitError (.waitStatus (.exited c)) ("exit status " ++ toString c))

/-- The error of `cmd.Run()` carries no exit code of the process: it is not an
`*exec.ExitError` whose wait status is an exit (the command could not be started,
or the process was killed by a signal). -/
def RunError.noExitCode : RunError → Bool
  | .exitError (.waitStatus (.exited _)) _ => false
  | _ => true

/-- The call of `filesync.Pull` for the datum `datum` and the pipeline input
`input`: destination `<PPSInputPrefix>/<input.Name>`, the datum, the lazy flag. -/
def fetchCall {τ φ : Type} (d : Deps τ φ) (datum : PfsFileInfo) (input : PipelineInput) :
    Event :=
  .pull (d.Join d.PPSInputPrefix input.Name) datum input.Lazy

/-- The error (or nil) with which the world answers that call. -/
def fetchResult {τ φ : Type} (d : Deps τ φ) (w : World) (datum : PfsFileInfo)
    (input : PipelineInput) : Option GoError :=
  w.Pull (d.Join d.PPSInputPrefix input.Name) datum input.Lazy

/-- The events of the run step: `os.MkdirAll`, `cmd.Run`, the write to standard
error. -/
def Event.isRunStep : Event → Bool
  | .mkdirAll _ _ => true
  | .run _ _ _ => true
  | .stderr _ => true
  | _ => false

/-- The events of the upload step: opening, block put, closing, the two tree
insertions and the object put. -/
def Event.isUploadStep : Event → Bool
  | .osOpen _ _ => true
  | .putBlock _ _ => true
  | .osClose _ _ => true
  | .treePutDir _ _ => true
  | .treePutFile _ _ _ => true
  | .putObject _ _ => true
  | _ => false

/-- The events of `Process` itself: the lock, the unlock and the log record. -/
def Event.isCoordinator : Event → Bool
  | .lock => true
  | .unlock => true
  | .log _ _ _ _ => true
  | _ => false

/-- The event is a call of `filesync.Pull`. -/
def Event.isPull : Event → Bool
  | .pull _ _ _ => true
  | _ => false

/-- An insertion into the hash tree: a directory at a path, or a file at a path
with its block references. -/
inductive Insertion where
  | dir (path : String)
  | file (path : String) (refs : List BlockRef)
deriving DecidableEq, Repr

/-- The insertion an event makes into the hash tree, if it is one. -/
def Event.insertion : Event → Option Insertion
  | .treePutDir path _ => some (.dir path)
  | .treePutFile path refs _ => some (.file path refs)
  | _ => none

/-- The insertion is a directory insertion. -/
def Insertion.isDir : Insertion → Bool
  | .dir _ => true
  | .file _ _ => false

/-- The insertion is a file insertion. -/
def Insertion.isFile : Insertion → Bool
  | .dir _ => false
  | .file _ _ => true

/-- The event is a block put. -/
def Event.isPutBlock : Event → Bool
  | .putBlock _ _ => true
  | _ => false

/-- The event is an operation on a file entry of the output root that returned
an error: the open, the block put, the insertion of the file into the hash
tree, or the close. -/
def Event.isFailedFileOp : Event → Bool
  | .osOpen _ (some _) => true
  | .putBlock _ (some _) => true
  | .treePutFile _ _ (some _) => true
  | .osClose _ (some _) => true
  | _ => false

/-- The event is the insertion of a directory into the hash tree that returned
an error. -/
def Event.isFailedDirOp : Event → Bool
  | .treePutDir _ (some _) => true
  | _ => false

/-- The event is an object put. -/
def Event.isPutObject : Event → Bool
  | .putObject _ _ => true
  | _ => false

/-- The walk call is for a file (not a directory) other than the root. -/
def WalkCall.isFileEntry (root : String) (call : WalkCall) : Bool :=
  call.path ≠ root && call.info == some ⟨false⟩

/-- The walk call is for a directory other than the root. -/
def WalkCall.isDirEntry (root : String) (call : WalkCall) : Bool :=
  call.path ≠ root && call.info == some ⟨true⟩

/-- The operations on one walk call succeed, with these results: unless the call
is for the root, its path relative to the root is `rel path`, its `info` is
present, and, for a file, it can be opened and the block put of its content
returns the block references `blockRef path`. -/
def EntryOpsSucceed {τ φ : Type} (d : Deps τ φ) (w : World) (rel : String → String)
    (blockRef : String → List BlockRef) (call : WalkCall) : Prop :=
  call.path = d.PPSOutputPath ∨
    (d.Rel d.PPSOutputPath call.path = .ok (rel call.path) ∧
      (call.info = some ⟨true⟩ ∨
        (call.info = some ⟨false⟩ ∧
          ∃ f, w.Open call.path = .ok f ∧ w.PutBlock f = .ok ⟨blockRef call.path⟩)))

/-- The insertion that the specification of the output tree builder asks for one
walk call: none for the root, a directory insertion at the relative path for a
directory, a file insertion at the relative path with the block references of
the file for a file. -/
def specInsertion (root : String) (rel : String → String)
    (blockRef : String → List BlockRef) (call : WalkCall) : Option Insertion :=
  if call.path = root then none
  else
    match call.info with
    | none => none
    | some info =>
      if info.IsDir then some (.dir (rel call.path))
      else some (.file (rel call.path) (blockRef call.path))

/-- The hash tree after one insertion: `tree.PutDir` for a directory,
`tree.PutFile` for a file. -/
def applyInsertion {τ φ : Type} (d : Deps τ φ) (tree : τ) : Insertion → τ
  | .dir path => (d.PutDir tree path).1
  | .file path refs => (d.PutFile tree path refs).1

/-- The hash tree after a list of insertions, made in order. -/
def applyInsertions {τ φ : Type} (d : Deps τ φ) (tree : τ) (ins : List Insertion) : τ :=
  ins.foldl (applyInsertion d) tree

/-! ### A concrete worker, for evaluating the code -/

/-- A hash tree kept as the list of its insertions; inserting a directory at a
path that holds a file is a path conflict. -/
def exPutDir (tree : List (String × Bool)) (path : String) :
    List (String × Bool) × Option GoError :=
  if (path, false) ∈ tree then (tree, some ⟨"path conflict"⟩)
  else (tree ++ [(path, true)], none)

/-- Inserting a file at a path that holds a directory is a path conflict. -/
def exPutFile (tree : List (String × Bool)) (path : String) (_refs : List BlockRef) :
    List (String × Bool) × Option GoError :=
  if (path, true) ∈ tree then (tree, some ⟨"path conflict"⟩)
  else (tree ++ [(path, false)], none)

/-- Library parameters with the constants `/pfs` and `/pfs/out`. -/
def exDeps : Deps (List (String × Bool)) (List (String × Bool)) where
  PPSInputPrefix := "/pfs"
  PPSOutputPath := "/pfs/out"
  Join := fun a b => a ++ "/" ++ b
  Rel := fun _ targ =>
    if targ = "/pfs/out/dir" then .ok "dir"
    else if targ = "/pfs/out/a.txt" then .ok "a.txt"
    else if targ = "/pfs/out/a" then .ok "a"
    else .error ⟨"Rel: cannot make path relative"⟩
  NewHashTree := []
  PutDir := exPutDir
  PutFile := exPutFile
  Finish := fun tree => .ok tree
  Serialize := fun tree => .ok (tree.map fun e => e.1.length)
  HashDatum := fun data _ => .ok (String.join (data.map fun fi => fi.hash))

/-- A world in which every call succeeds and the output root holds the
directory `dir` and the file `a.txt`. -/
def exWorld : World where
  Now := 100
  Since := fun start => 107 - start
  Pull := fun _ _ _ => none
  MkdirAll := fun _ _ => none
  Run := fun _ _ _ => none
  Walk := fun _ =>
    [⟨"/pfs/out", some ⟨true⟩, none⟩, ⟨"/pfs/out/dir", some ⟨true⟩, none⟩,
     ⟨"/pfs/out/a.txt", some ⟨false⟩, none⟩]
  sched := []
  Open := fun path => .ok ⟨path, [104, 105]⟩
  PutBlock := fun f => .ok ⟨[⟨"b0", 0, f.content.length⟩]⟩
  Close := fun _ => none
  PutObject := fun _ _ => none

/-- A pipeline with the two inputs `in0`, `in1` and the command `sh`. -/
def exPipeline : PipelineInfo where
  Inputs := [⟨"in0", false⟩, ⟨"in1", true⟩]
  Transform := { Cmd := ["sh"], Stdin := ["cp /pfs/in0/* /pfs/out"], AcceptReturnCode := [0, 3] }

/-- A datum with one file per input. -/
def exRequest : ProcessRequest where
  Data := [⟨"/x", "h0"⟩, ⟨"/y", "h1"⟩]

/-- The world `exWorld`, except that the command cannot be started. -/
def exWorldNoExec : World :=
  { exWorld with
    Run := fun _ _ _ => some (.otherError "exec: \"sh\": executable file not found in $PATH") }

/-- The world `exWorld`, except that the transform is killed by signal 9. -/
def exWorldKilled : World :=
  { exWorld with
    Run := fun _ _ _ => some (.exitError (.waitStatus (.signaled 9)) "signal: killed") }

/-- A pipeline with the five inputs `in0` ... `in4`. -/
def exPipeline5 : PipelineInfo where
  Inputs := [⟨"in0", false⟩, ⟨"in1", true⟩, ⟨"in2", false⟩, ⟨"in3", false⟩, ⟨"in4", true⟩]
  Transform := exPipeline.Transform

/-- A datum with one file per input of `exPipeline5`. -/
def exRequest5 : ProcessRequest where
  Data := [⟨"/0", "h0"⟩, ⟨"/1", "h1"⟩, ⟨"/2", "h2"⟩, ⟨"/3", "h3"⟩, ⟨"/4", "h4"⟩]

/-- The world `exWorld`, except that the input `in2` cannot be pulled. -/
def exWorldPullFails : World :=
  { exWorld with
    Pull := fun dest _ _ => if dest = "/pfs/in2" then some ⟨"pull: file not found"⟩ else none }

/-- The parameters `exDeps`, except that `tree.PutDir` answers with a path
conflict and leaves the tree as it is. -/
def exDepsDirConflict : Deps (List (String × Bool)) (List (String × Bool)) :=
  { exDeps with PutDir := fun tree _ => (tree, some ⟨"path conflict"⟩) }

/-- The world `exWorld`, except that the file `a.txt` cannot be opened. -/
def exWorldOpenFails : World :=
  { exWorld with Open := fun _ => .error ⟨"open: permission denied"⟩ }

/-- The world `exWorld` with another output root (a file `a` only), another
schedule and other block references. -/
def exWorldOther : World :=
  { exWorld with
    Walk := fun _ => [⟨"/pfs/out", some ⟨true⟩, none⟩, ⟨"/pfs/out/a", some ⟨false⟩, none⟩]
    sched := [1, 0]
    PutBlock := fun _ => .ok ⟨[⟨"b7", 0, 1⟩, ⟨"b8", 1, 2⟩]⟩ }

/-- A run of two calls of `Process` for `exRequest`: the first call runs up to
and including its unlock, the second call then locks and pulls its first input,
then the first call emits its log record, then the second call runs to its
end. -/
def exRun : List (Caller × Event) :=
  ((Process exDeps exWorld exPipeline exRequest).1.take 12).map (Prod.mk Caller.first) ++
  ((Process exDeps exWorld exPipeline exRequest).1.take 2).map (Prod.mk Caller.second) ++
  ((Process exDeps exWorld exPipeline exRequest).1.drop 12).map (Prod.mk Caller.first) ++
  ((Process exDeps exWorld exPipeline exRequest).1.drop 2).map (Prod.mk Caller.second)

/-! ### Helper lemmas -/

theorem acceptLoop_eq (codes : List Int) (x : Int) (s : Bool) :
    acceptLoop codes x s = (s || decide (x ∈ codes)) := by
  unfold acceptLoop
  induction codes generalizing s with
  | nil => simp
  | cons a as ih =>
    rw [List.foldl_cons, ih]
    by_cases h : a = x
    · subst h; simp
    · have h' : ¬ x = a := fun e => h e.symm
      simp [h, h']

theorem runSuccess_exitResult (t : Transform) (c : Nat) :
    runSuccess t (exitResult c) = true ↔ (c = 0 ∨ (c : Int) ∈ t.AcceptReturnCode) := by
  unfold exitResult
  by_cases h : c = 0
  · simp [h, runSuccess]
  · simp [h, runSuccess, acceptLoop_eq, WaitStatus.ExitStatus]

theorem runUserCode_of_run {τ φ : Type} (d : Deps τ φ) (w : World) (pi : PipelineInfo)
    (name : String) (args : List String)
    (hm : w.MkdirAll d.PPSOutputPath 438 = none) (hc : pi.Transform.Cmd = name :: args) :
    runUserCode d w pi =
      (.mkdirAll d.PPSOutputPath 438 ::
        .run name args ("\n".intercalate pi.Transform.Stdin ++ "\n") ::
        (match w.Run name args ("\n".intercalate pi.Transform.Stdin ++ "\n") with
         | none => []
         | some err =>
           if runSuccess pi.Transform (some err) then []
           else [.stderr ("Error from exec: " ++ err.Error ++ "\n")]),
       .ret none) := by
  unfold runUserCode
  simp only [hm, hc]
  cases w.Run name args ("\n".intercalate pi.Transform.Stdin ++ "\n") with
  | none => rfl
  | some err => by_cases h : runSuccess pi.Transform (some err) = true <;> simp [h]

theorem Process_result {τ φ : Type} (d : Deps τ φ) (w : World) (pi : PipelineInfo)
    (req : ProcessRequest) : (Process d w pi req).2 = (processBody d w pi req).2 := by
  unfold Process
  rcases processBody d w pi req with ⟨ev, _ | _ | _⟩ <;> rfl

theorem Process_trace {τ φ : Type} (d : Deps τ φ) (w : World) (pi : PipelineInfo)
    (req : ProcessRequest) (r : Option ProcessResponse × Option GoError)
    (h : (processBody d w pi req).2 = .ret r) :
    (Process d w pi req).1 =
      .lock :: (processBody d w pi req).1 ++ [.unlock, .log req r.1 r.2 (w.Since w.Now)] := by
  unfold Process
  generalize processBody d w pi req = pb at h ⊢
  rcases pb with ⟨ev, _ | _ | _⟩
  · cases h; rfl
  · cases h
  · cases h

theorem processBody_download_err {τ φ : Type} (d : Deps τ φ) (w : World) (pi : PipelineInfo)
    (req : ProcessRequest) (err : GoError)
    (h : (downloadData d w pi req.Data).2 = .ret (some err)) :
    processBody d w pi req = ((downloadData d w pi req.Data).1, .ret (none, some err)) := by
  unfold processBody
  generalize downloadData d w pi req.Data = r1 at h ⊢
  rcases r1 with ⟨ev1, o1⟩
  cases h; rfl

theorem processBody_run_err {τ φ : Type} (d : Deps τ φ) (w : World) (pi : PipelineInfo)
    (req : ProcessRequest) (err : GoError)
    (h1 : (downloadData d w pi req.Data).2 = .ret none)
    (h2 : (runUserCode d w pi).2 = .ret (some err)) :
    processBody d w pi req =
      ((downloadData d w pi req.Data).1 ++ (runUserCode d w pi).1, .ret (none, some err)) := by
  unfold processBody
  generalize downloadData d w pi req.Data = r1 at h1 ⊢
  generalize runUserCode d w pi = r2 at h2 ⊢
  rcases r1 with ⟨ev1, o1⟩
  rcases r2 with ⟨ev2, o2⟩
  cases h1; cases h2; rfl

theorem processBody_upload {τ φ : Type} (d : Deps τ φ) (w : World) (pi : PipelineInfo)
    (req : ProcessRequest)
    (h1 : (downloadData d w pi req.Data).2 = .ret none)
    (h2 : (runUserCode d w pi).2 = .ret none) :
    processBody d w pi req =
      ((downloadData d w pi req.Data).1 ++ (runUserCode d w pi).1 ++
          (uploadOutput d w pi req.Data).1,
        match (uploadOutput d w pi req.Data).2 with
        | .panic => .panic
        | .crash => .crash
        | .ret (.error err) => .ret (none, some err)
        | .ret (.ok tag) => .ret (some { Tag := tag }, none)) := by
  unfold processBody
  generalize downloadData d w pi req.Data = r1 at h1 ⊢
  generalize runUserCode d w pi = r2 at h2 ⊢
  rcases r1 with ⟨ev1, o1⟩
  rcases r2 with ⟨ev2, o2⟩
  cases h1; cases h2
  rcases uploadOutput d w pi req.Data with ⟨ev3, (_ | _) | _ | _⟩ <;> rfl

theorem downloadFrom_fails {τ φ : Type} (d : Deps τ φ) (w : World) (pi : PipelineInfo)
    (data : List PfsFileInfo) (i k : Nat) (err : GoError)
    (hok : ∀ r ∈ (List.zipWith (fetchResult d w) data (pi.Inputs.drop i)).take k, r = none)
    (hk : (List.zipWith (fetchResult d w) data (pi.Inputs.drop i))[k]? = some (some err)) :
    downloadFrom d w pi i data =
      ((List.zipWith (fetchCall d) data (pi.Inputs.drop i)).take (k + 1), .ret (some err)) := by
  induction data generalizing i k with
  | nil => simp at hk
  | cons datum rest ih =>
    by_cases hi : i < pi.Inputs.length
    · have hdrop : pi.Inputs.drop i = pi.Inputs[i] :: pi.Inputs.drop (i + 1) :=
        List.drop_eq_getElem_cons hi
      have hget : pi.Inputs[i]? = some pi.Inputs[i] := List.getElem?_eq_getElem hi
      rw [hdrop] at hok hk ⊢
      simp only [List.zipWith_cons_cons] at hok hk ⊢
      unfold downloadFrom
      simp only [hget]
      cases k with
      | zero =>
        simp only [List.getElem?_cons_zero, Option.some.injEq] at hk
        simp only [fetchResult] at hk
        simp [hk, fetchCall]
      | succ k =>
        simp only [List.take_succ_cons, List.mem_cons, forall_eq_or_imp] at hok
        simp only [List.getElem?_cons_succ] at hk
        have h0 := hok.1
        simp only [fetchResult] at h0
        simp only [h0, ih (i + 1) k hok.2 hk]
        simp [fetchCall]
    · have hdrop : pi.Inputs.drop i = [] := List.drop_eq_nil_of_le (Nat.le_of_not_lt hi)
      rw [hdrop] at hk
      simp at hk

theorem downloadFrom_succeeds {τ φ : Type} (d : Deps τ φ) (w : World) (pi : PipelineInfo)
    (data : List PfsFileInfo) (i : Nat) (hlen : data.length + i ≤ pi.Inputs.length)
    (hok : ∀ r ∈ List.zipWith (fetchResult d w) data (pi.Inputs.drop i), r = none) :
    downloadFrom d w pi i data =
      (List.zipWith (fetchCall d) data (pi.Inputs.drop i), .ret none) := by
  induction data generalizing i with
  | nil => simp [downloadFrom]
  | cons datum rest ih =>
    have hi : i < pi.Inputs.length := by
      simp only [List.length_cons] at hlen; omega
    have hdrop : pi.Inputs.drop i = pi.Inputs[i] :: pi.Inputs.drop (i + 1) :=
      List.drop_eq_getElem_cons hi
    have hget : pi.Inputs[i]? = some pi.Inputs[i] := List.getElem?_eq_getElem hi
    rw [hdrop] at hok ⊢
    simp only [List.zipWith_cons_cons, List.mem_cons, forall_eq_or_imp] at hok ⊢
    unfold downloadFrom
    simp only [hget]
    have h0 := hok.1
    simp only [fetchResult] at h0
    have hlen' : rest.length + (i + 1) ≤ pi.Inputs.length := by
      simp only [List.length_cons] at hlen; omega
    simp only [h0, ih (i + 1) hlen' hok.2]
    simp [fetchCall]

theorem downloadFrom_events {τ φ : Type} (d : Deps τ φ) (w : World) (pi : PipelineInfo)
    (i : Nat) (data : List PfsFileInfo) :
    ∀ e ∈ (downloadFrom d w pi i data).1, e.isPull = true := by
  induction data generalizing i with
  | nil => simp [downloadFrom]
  | cons datum rest ih =>
    unfold downloadFrom
    cases pi.Inputs[i]? with
    | none => simp
    | some input =>
      cases hp : w.Pull (d.Join d.PPSInputPrefix input.Name) datum input.Lazy with
      | some err => simp [hp, Event.isPull]
      | none =>
        simp only [hp, List.mem_cons, forall_eq_or_imp]
        exact ⟨rfl, ih (i + 1)⟩

theorem runUserCode_events {τ φ : Type} (d : Deps τ φ) (w : World) (pi : PipelineInfo) :
    ∀ e ∈ (runUserCode d w pi).1, e.isRunStep = true := by
  unfold runUserCode
  cases hm : w.MkdirAll d.PPSOutputPath 438 with
  | some err => simp [Event.isRunStep]
  | none =>
    cases hc : pi.Transform.Cmd with
    | nil => simp [hc, Event.isRunStep]
    | cons name args =>
      cases hr : w.Run name args ("\n".intercalate pi.Transform.Stdin ++ "\n") with
      | none => simp [hc, hr, Event.isRunStep]
      | some err =>
        by_cases hs : runSuccess pi.Transform (some err) = true <;>
          simp [hc, hr, hs, Event.isRunStep]

theorem entryTask_events {τ φ : Type} (d : Deps τ φ) (w : World) (call : WalkCall) (tree : τ) :
    ∀ e ∈ (entryTask d w call tree).1, e.isUploadStep = true := by
  unfold entryTask
  by_cases hroot : call.path = d.PPSOutputPath
  · simp [hroot]
  · cases hrel : d.Rel d.PPSOutputPath call.path with
    | error err => simp [hroot]
    | ok relPath =>
      cases hinfo : call.info with
      | none => simp [hroot]
      | some info =>
        by_cases hdir : info.IsDir = true
        · simp [hroot, hdir, Event.isUploadStep]
        · cases hopen : w.Open call.path with
          | error err => simp [hroot, hdir, Event.isUploadStep]
          | ok f =>
            cases hput : w.PutBlock f with
            | error err => simp [hroot, hdir, hput, Event.isUploadStep]
            | ok blockRefs => simp [hroot, hdir, hput, Event.isUploadStep]

theorem runTasks_events {τ φ : Type} (d : Deps τ φ) (w : World) (calls : List WalkCall)
    (tree : τ) (gerr : Option GoError) :
    ∀ e ∈ (runTasks d w calls tree gerr).1, e.isUploadStep = true := by
  induction calls generalizing tree gerr with
  | nil => simp [runTasks]
  | cons call calls ih =>
    unfold runTasks
    have h1 := entryTask_events d w call tree
    generalize entryTask d w call tree = r at h1 ⊢
    rcases r with ⟨ev, tree', _ | _ | _⟩
    · intro e he
      simp only [List.mem_append] at he
      rcases he with he | he
      · exact h1 e he
      · exact ih _ _ e he
    · exact h1
    · exact h1

theorem Walk_walkFn (calls started : List WalkCall) :
    Walk walkFn calls started = (started ++ calls, none) := by
  induction calls generalizing started with
  | nil => simp [Walk]
  | cons call calls ih => simp [Walk, walkFn, ih]

theorem uploadOutput_unfold {τ φ : Type} (d : Deps τ φ) (w : World) (pi : PipelineInfo)
    (data : List PfsFileInfo) :
    uploadOutput d w pi data =
      match runTasks d w (schedule w.sched (w.Walk d.PPSOutputPath)) d.NewHashTree none with
      | (ev, _, .panic) => (ev, .crash)
      | (ev, _, .crash) => (ev, .crash)
      | (ev, _, .ret (some err)) => (ev, .ret (.error err))
      | (ev, tree', .ret none) =>
        match d.Finish tree' with
        | .error err => (ev, .ret (.error err))
        | .ok finTree =>
          match d.Serialize finTree with
          | .error err => (ev, .ret (.error err))
          | .ok treeBytes =>
            match d.HashDatum data pi with
            | .error err => (ev, .ret (.error err))
            | .ok hash =>
              match w.PutObject treeBytes hash with
              | some err => (ev ++ [.putObject treeBytes hash], .ret (.error err))
              | none => (ev ++ [.putObject treeBytes hash], .ret (.ok hash)) := by
  unfold uploadOutput
  rw [Walk_walkFn]
  rfl

theorem uploadOutput_events {τ φ : Type} (d : Deps τ φ) (w : World) (pi : PipelineInfo)
    (data : List PfsFileInfo) :
    ∀ e ∈ (uploadOutput d w pi data).1, e.isUploadStep = true := by
  rw [uploadOutput_unfold]
  have h1 := runTasks_events d w (schedule w.sched (w.Walk d.PPSOutputPath))
    d.NewHashTree none
  generalize runTasks d w (schedule w.sched (w.Walk d.PPSOutputPath))
    d.NewHashTree none = r at h1 ⊢
  rcases r with ⟨ev, tree', (_ | err) | _ | _⟩
  · cases hfin : d.Finish tree' with
    | error err => simpa [hfin] using h1
    | ok finTree =>
      cases hser : d.Serialize finTree with
      | error err => simpa [hfin, hser] using h1
      | ok treeBytes =>
        cases hhash : d.HashDatum data pi with
        | error err => simpa [hfin, hser, hhash] using h1
        | ok hash =>
          have h2 : ∀ e ∈ ev ++ [Event.putObject treeBytes hash], e.isUploadStep = true := by
            intro e he
            simp only [List.mem_append, List.mem_singleton] at he
            rcases he with he | he
            · exact h1 e he
            · subst he; rfl
          cases hobj : w.PutObject treeBytes hash with
          | some err => simpa [hfin, hser, hhash, hobj] using h2
          | none => simpa [hfin, hser, hhash, hobj] using h2
  · simpa using h1
  · simpa using h1
  · simpa using h1

theorem processBody_events {τ φ : Type} (d : Deps τ φ) (w : World) (pi : PipelineInfo)
    (req : ProcessRequest) :
    ∀ e ∈ (processBody d w pi req).1, e.isCoordinator = false := by
  have h1 : ∀ e ∈ (downloadData d w pi req.Data).1, e.isCoordinator = false := by
    intro e he
    have := downloadFrom_events d w pi 0 req.Data e he
    cases e <;> simp_all [Event.isPull, Event.isCoordinator]
  have h2 : ∀ e ∈ (runUserCode d w pi).1, e.isCoordinator = false := by
    intro e he
    have := runUserCode_events d w pi e he
    cases e <;> simp_all [Event.isRunStep, Event.isCoordinator]
  have h3 : ∀ e ∈ (uploadOutput d w pi req.Data).1, e.isCoordinator = false := by
    intro e he
    have := uploadOutput_events d w pi req.Data e he
    cases e <;> simp_all [Event.isUploadStep, Event.isCoordinator]
  unfold processBody
  generalize downloadData d w pi req.Data = r1 at h1 ⊢
  generalize runUserCode d w pi = r2 at h2 ⊢
  generalize uploadOutput d w pi req.Data = r3 at h3 ⊢
  have h12 : ∀ e ∈ r1.1 ++ r2.1, e.isCoordinator = false := by
    intro e he
    rcases List.mem_append.1 he with he | he
    · exact h1 e he
    · exact h2 e he
  have h123 : ∀ e ∈ r1.1 ++ r2.1 ++ r3.1, e.isCoordinator = false := by
    intro e he
    rcases List.mem_append.1 he with he | he
    · exact h12 e he
    · exact h3 e he
  rcases r1 with ⟨ev1, (_ | _) | _ | _⟩
  · rcases r2 with ⟨ev2, (_ | _) | _ | _⟩
    · rcases r3 with ⟨ev3, (_ | _) | _ | _⟩ <;> exact h123
    · exact h12
    · exact h12
    · exact h12
  · exact h1
  · exact h1
  · exact h1

theorem perm_getD_cons_eraseIdx {α : Type} (l : List α) (i : Nat) (a : α) (h : i < l.length) :
    (l.getD i a :: l.eraseIdx i).Perm l := by
  induction l generalizing i with
  | nil => simp at h
  | cons x xs ih =>
    cases i with
    | zero => simp
    | succ i =>
      have hi : i < xs.length := by simpa using h
      have := ih i hi
      simp only [List.getD_cons_succ, List.eraseIdx_cons_succ]
      exact (List.Perm.swap x (xs.getD i a) (xs.eraseIdx i)).trans (this.cons x)

theorem schedule_perm {α : Type} (sched : List Nat) (ts : List α) :
    (schedule sched ts).Perm ts := by
  induction sched generalizing ts with
  | nil => cases ts <;> simp [schedule]
  | cons k ks ih =>
    cases ts with
    | nil => simp [schedule]
    | cons t ts =>
      simp only [schedule]
      have hlt : k % (ts.length + 1) < (t :: ts).length := by
        simp only [List.length_cons]
        exact Nat.mod_lt _ (Nat.succ_pos _)
      exact ((ih _).cons _).trans (perm_getD_cons_eraseIdx (t :: ts) _ t hlt)

theorem entryTask_of_success {τ φ : Type} (d : Deps τ φ) (w : World) (rel : String → String)
    (blockRef : String → List BlockRef) (call : WalkCall) (tree : τ)
    (h : EntryOpsSucceed d w rel blockRef call) :
    (∃ r, (entryTask d w call tree).2.2 = .ret r) ∧
    (entryTask d w call tree).1.filterMap Event.insertion =
      (specInsertion d.PPSOutputPath rel blockRef call).toList ∧
    (entryTask d w call tree).1.countP Event.isPutBlock =
      (if call.isFileEntry d.PPSOutputPath then 1 else 0) := by
  unfold entryTask specInsertion WalkCall.isFileEntry
  rcases h with hroot | ⟨hrel, hdir | ⟨hfile, f, hopen, hput⟩⟩
  · simp [hroot]
  · by_cases hroot : call.path = d.PPSOutputPath
    · simp [hroot]
    · simp [hroot, hrel, hdir, Event.insertion, Event.isPutBlock]
  · by_cases hroot : call.path = d.PPSOutputPath
    · simp [hroot]
    · simp [hroot, hrel, hfile, hopen, hput, Event.insertion, Event.isPutBlock]

theorem runTasks_of_success {τ φ : Type} (d : Deps τ φ) (w : World) (rel : String → String)
    (blockRef : String → List BlockRef) (calls : List WalkCall) (tree : τ)
    (gerr : Option GoError) (h : ∀ call ∈ calls, EntryOpsSucceed d w rel blockRef call) :
    (∃ r, (runTasks d w calls tree gerr).2.2 = .ret r) ∧
    (runTasks d w calls tree gerr).1.filterMap Event.insertion =
      calls.filterMap (specInsertion d.PPSOutputPath rel blockRef) ∧
    (runTasks d w calls tree gerr).1.countP Event.isPutBlock =
      calls.countP (WalkCall.isFileEntry d.PPSOutputPath) := by
  induction calls generalizing tree gerr with
  | nil => simp [runTasks]
  | cons call calls ih =>
    have h1 := entryTask_of_success d w rel blockRef call tree (h call (List.mem_cons_self _ _))
    have ih' := fun tree gerr => ih tree gerr (fun c hc => h c (List.mem_cons_of_mem _ hc))
    unfold runTasks
    generalize entryTask d w call tree = r at h1 ⊢
    rcases r with ⟨ev, tree', r | _ | _⟩
    · obtain ⟨_, hins, hcnt⟩ := h1
      simp only at hins hcnt
      obtain ⟨hr, hins', hcnt'⟩ := ih' tree'
        (match gerr with
         | some err => some err
         | none => r)
      refine ⟨hr, ?_, ?_⟩
      · simp only [List.filterMap_append, hins, hins']
        cases hs : specInsertion d.PPSOutputPath rel blockRef call <;>
          simp [List.filterMap_cons, hs]
      · simp only [List.countP_append, hcnt, hcnt', List.countP_cons]
        omega
    · obtain ⟨⟨r, hr⟩, _⟩ := h1
      cases hr
    · obtain ⟨⟨r, hr⟩, _⟩ := h1
      cases hr

theorem entryTask_not_putObject {τ φ : Type} (d : Deps τ φ) (w : World) (call : WalkCall)
    (tree : τ) : ∀ e ∈ (entryTask d w call tree).1, e.isPutObject = false := by
  unfold entryTask
  by_cases hroot : call.path = d.PPSOutputPath
  · simp [hroot]
  · cases hrel : d.Rel d.PPSOutputPath call.path with
    | error err => simp [hroot]
    | ok relPath =>
      cases hinfo : call.info with
      | none => simp [hroot]
      | some info =>
        by_cases hdir : info.IsDir = true
        · simp [hroot, hdir, Event.isPutObject]
        · cases hopen : w.Open call.path with
          | error err => simp [hroot, hdir, Event.isPutObject]
          | ok f =>
            cases hput : w.PutBlock f with
            | error err => simp [hroot, hdir, hput, Event.isPutObject]
            | ok blockRefs => simp [hroot, hdir, hput, Event.isPutObject]

theorem runTasks_not_putObject {τ φ : Type} (d : Deps τ φ) (w : World)
    (calls : List WalkCall) (tree : τ) (gerr : Option GoError) :
    ∀ e ∈ (runTasks d w calls tree gerr).1, e.isPutObject = false := by
  induction calls generalizing tree gerr with
  | nil => simp [runTasks]
  | cons call calls ih =>
    unfold runTasks
    have h1 := entryTask_not_putObject d w call tree
    generalize entryTask d w call tree = r at h1 ⊢
    rcases r with ⟨ev, tree', _ | _ | _⟩
    · intro e he
      simp only [List.mem_append] at he
      rcases he with he | he
      · exact h1 e he
      · exact ih _ _ e he
    · exact h1
    · exact h1

theorem entryTask_failed {τ φ : Type} (d : Deps τ φ) (w : World) (call : WalkCall)
    (tree : τ) (h : ∃ e ∈ (entryTask d w call tree).1, e.isFailedFileOp = true) :
    (entryTask d w call tree).2.2 ≠ .ret none := by
  unfold entryTask at h ⊢
  by_cases hroot : call.path = d.PPSOutputPath
  · simp [hroot] at h
  · cases hrel : d.Rel d.PPSOutputPath call.path with
    | error err => simp [hroot]
    | ok relPath =>
      cases hinfo : call.info with
      | none => simp [hroot]
      | some info =>
        by_cases hdir : info.IsDir = true
        · simp [hroot, hrel, hinfo, hdir, Event.isFailedFileOp] at h
        · cases hopen : w.Open call.path with
          | error err => simp [hroot, hdir]
          | ok f =>
            cases hput : w.PutBlock f with
            | error err => simp [hroot, hdir, hput]
            | ok blockRefs =>
              simp only [hroot, hrel, hinfo, hdir, hopen, hput] at h
              simp only [hroot, hdir, hput]
              cases hpf : (d.PutFile tree relPath blockRefs.BlockRef).2 with
              | some err => simp
              | none =>
                cases hcl : w.Close f with
                | some err => simp
                | none => simp [hpf, hcl, Event.isFailedFileOp] at h

theorem runTasks_failed {τ φ : Type} (d : Deps τ φ) (w : World) (calls : List WalkCall)
    (tree : τ) (gerr : Option GoError)
    (h : gerr ≠ none ∨ ∃ e ∈ (runTasks d w calls tree gerr).1, e.isFailedFileOp = true) :
    (runTasks d w calls tree gerr).2.2 ≠ .ret none := by
  induction calls generalizing tree gerr with
  | nil =>
    rcases h with h | h
    · simpa [runTasks] using h
    · simp [runTasks] at h
  | cons call calls ih =>
    unfold runTasks at h ⊢
    have h1 := entryTask_failed d w call tree
    generalize entryTask d w call tree = r at h h1 ⊢
    rcases r with ⟨ev, tree', r | _ | _⟩
    · apply ih
      rcases h with h | ⟨e, he, hf⟩
      · left
        cases gerr with
        | none => exact absurd rfl h
        | some err => simp
      · simp only [List.mem_append] at he
        rcases he with he | he
        · left
          have := h1 ⟨e, he, hf⟩
          cases gerr with
          | some err => simp
          | none =>
            cases r with
            | none => exact absurd rfl this
            | some err => simp
        · right
          exact ⟨e, he, hf⟩
    · simp
    · simp

theorem uploadOutput_trace {τ φ : Type} (d : Deps τ φ) (w : World) (pi : PipelineInfo)
    (data : List PfsFileInfo) :
    ∃ tail, (uploadOutput d w pi data).1 =
        (runTasks d w (schedule w.sched (w.Walk d.PPSOutputPath)) d.NewHashTree none).1 ++ tail ∧
      (∀ e ∈ tail, e.isPutObject = true) ∧
      ((runTasks d w (schedule w.sched (w.Walk d.PPSOutputPath)) d.NewHashTree none).2.2 ≠
          .ret none →
        tail = [] ∧ ∀ tag, (uploadOutput d w pi data).2 ≠ .ret (.ok tag)) := by
  rw [uploadOutput_unfold]
  generalize runTasks d w (schedule w.sched (w.Walk d.PPSOutputPath)) d.NewHashTree none = r
  rcases r with ⟨ev, tree', (_ | err) | _ | _⟩
  · cases hfin : d.Finish tree' with
    | error err => exact ⟨[], by simp [hfin], by simp, by simp⟩
    | ok finTree =>
      cases hser : d.Serialize finTree with
      | error err => exact ⟨[], by simp [hfin, hser], by simp, by simp⟩
      | ok treeBytes =>
        cases hhash : d.HashDatum data pi with
        | error err => exact ⟨[], by simp [hfin, hser, hhash], by simp, by simp⟩
        | ok hash =>
          cases hobj : w.PutObject treeBytes hash with
          | some err =>
            exact ⟨[.putObject treeBytes hash], by simp [hfin, hser, hhash, hobj],
              by simp [Event.isPutObject], by simp⟩
          | none =>
            exact ⟨[.putObject treeBytes hash], by simp [hfin, hser, hhash, hobj],
              by simp [Event.isPutObject], by simp⟩
  · exact ⟨[], by simp, by simp, by simp⟩
  · exact ⟨[], by simp, by simp, by simp⟩
  · exact ⟨[], by simp, by simp, by simp⟩

theorem uploadOutput_ok_inv {τ φ : Type} (d : Deps τ φ) (w : World) (pi : PipelineInfo)
    (data : List PfsFileInfo) (tag : String)
    (h : (uploadOutput d w pi data).2 = .ret (.ok tag)) :
    ∃ finTree bytes,
      (runTasks d w (schedule w.sched (w.Walk d.PPSOutputPath)) d.NewHashTree none).2.2 =
        .ret none ∧
      d.Finish
        (runTasks d w (schedule w.sched (w.Walk d.PPSOutputPath)) d.NewHashTree none).2.1 =
        .ok finTree ∧
      d.Serialize finTree = .ok bytes ∧
      d.HashDatum data pi = .ok tag ∧
      w.PutObject bytes tag = none ∧
      (uploadOutput d w pi data).1 =
        (runTasks d w (schedule w.sched (w.Walk d.PPSOutputPath)) d.NewHashTree none).1 ++
          [.putObject bytes tag] := by
  rw [uploadOutput_unfold] at h ⊢
  generalize runTasks d w (schedule w.sched (w.Walk d.PPSOutputPath)) d.NewHashTree none = r
    at h ⊢
  rcases r with ⟨ev, tree', (_ | err) | _ | _⟩
  · simp only at h ⊢
    cases hfin : d.Finish tree' with
    | error err => simp [hfin] at h
    | ok finTree =>
      cases hser : d.Serialize finTree with
      | error err => simp [hfin, hser] at h
      | ok treeBytes =>
        cases hhash : d.HashDatum data pi with
        | error err => simp [hfin, hser, hhash] at h
        | ok hash =>
          cases hobj : w.PutObject treeBytes hash with
          | some err => simp [hfin, hser, hhash, hobj] at h
          | none =>
            simp only [hfin, hser, hhash, hobj, Outcome.ret.injEq, Except.ok.injEq] at h
            subst h
            refine ⟨finTree, treeBytes, ?_, ?_, hser, ?_, hobj, ?_⟩ <;>
              first | rfl | simp [hfin, hser, hhash, hobj]
  · simp at h
  · simp at h
  · simp at h

theorem Process_some_inv {τ φ : Type} (d : Deps τ φ) (w : World) (pi : PipelineInfo)
    (req : ProcessRequest) (resp : ProcessResponse) (err : Option GoError)
    (h : (Process d w pi req).2 = .ret (some resp, err)) :
    (uploadOutput d w pi req.Data).2 = .ret (.ok resp.Tag) ∧ err = none := by
  rw [Process_result] at h
  unfold processBody at h
  generalize downloadData d w pi req.Data = r1 at h
  generalize runUserCode d w pi = r2 at h
  generalize uploadOutput d w pi req.Data = r3 at h ⊢
  rcases r1 with ⟨ev1, (_ | _) | _ | _⟩ <;> try (cases h)
  rcases r2 with ⟨ev2, (_ | _) | _ | _⟩ <;> try (cases h)
  rcases r3 with ⟨ev3, (_ | _) | _ | _⟩ <;> try (cases h)
  exact ⟨rfl, rfl⟩

theorem filterMap_insertion_putObject (tail : List Event)
    (h : ∀ e ∈ tail, e.isPutObject = true) :
    tail.filterMap Event.insertion = [] ∧ tail.countP Event.isPutBlock = 0 := by
  induction tail with
  | nil => simp
  | cons e es ih =>
    have he := h e (List.mem_cons_self _ _)
    have ih' := ih (fun x hx => h x (List.mem_cons_of_mem _ hx))
    cases e <;> simp_all [Event.isPutObject, Event.insertion, Event.isPutBlock]

theorem specInsertion_counts (root : String) (rel : String → String)
    (blockRef : String → List BlockRef) (calls : List WalkCall) :
    (calls.filterMap (specInsertion root rel blockRef)).countP Insertion.isFile =
      calls.countP (WalkCall.isFileEntry root) ∧
    (calls.filterMap (specInsertion root rel blockRef)).countP Insertion.isDir =
      calls.countP (WalkCall.isDirEntry root) := by
  induction calls with
  | nil => simp
  | cons call calls ih =>
    obtain ⟨path, info, err⟩ := call
    by_cases hroot : path = root
    · simp [List.filterMap_cons, specInsertion, WalkCall.isFileEntry, WalkCall.isDirEntry,
        hroot, ih.1, ih.2]
    · cases info with
      | none =>
        simp [List.filterMap_cons, specInsertion, WalkCall.isFileEntry, WalkCall.isDirEntry,
          hroot, ih.1, ih.2]
      | some info =>
        obtain ⟨isDir⟩ := info
        cases isDir <;>
          simp [List.filterMap_cons, specInsertion, WalkCall.isFileEntry,
            WalkCall.isDirEntry, hroot, ih.1, ih.2, Insertion.isFile, Insertion.isDir]

theorem Process_trace_shape {τ φ : Type} (d : Deps τ φ) (w : World) (pi : PipelineInfo)
    (req : ProcessRequest) (h : (Process d w pi req).2 ≠ .crash) :
    ∃ steps l, (Process d w pi req).1 = .lock :: (steps ++ .unlock :: [l]) ∧
      (∀ e ∈ steps, e.isCoordinator = false) ∧ l.isCoordinator = true := by
  have hev := processBody_events d w pi req
  unfold Process at h ⊢
  generalize processBody d w pi req = pb at h hev ⊢
  rcases pb with ⟨ev, ⟨resp, err⟩ | _ | _⟩
  · exact ⟨ev, _, rfl, hev, rfl⟩
  · exact ⟨ev, _, rfl, hev, rfl⟩
  · exact absurd rfl h

theorem isInterleaving_mem (a b : List Event) (run : List (Caller × Event))
    (h : isInterleaving a b run = true) :
    ∀ x ∈ run, (x.1 = .first → x.2 ∈ a) ∧ (x.1 = .second → x.2 ∈ b) := by
  induction run generalizing a b with
  | nil => simp
  | cons y run ih =>
    obtain ⟨c, e⟩ := y
    cases c with
    | first =>
      cases a with
      | nil => simp [isInterleaving] at h
      | cons e' a' =>
        simp only [isInterleaving, Bool.and_eq_true, decide_eq_true_eq] at h
        obtain ⟨he, h'⟩ := h
        subst he
        intro x hx
        rcases List.mem_cons.1 hx with rfl | hx
        · simp
        · have := ih a' b h' x hx
          exact ⟨fun hc => List.mem_cons_of_mem _ (this.1 hc), this.2⟩
    | second =>
      cases b with
      | nil => simp [isInterleaving] at h
      | cons e' b' =>
        simp only [isInterleaving, Bool.and_eq_true, decide_eq_true_eq] at h
        obtain ⟨he, h'⟩ := h
        subst he
        intro x hx
        rcases List.mem_cons.1 hx with rfl | hx
        · simp
        · have := ih a b' h' x hx
          exact ⟨this.1, fun hc => List.mem_cons_of_mem _ (this.2 hc)⟩

theorem mutexRespected_step (locked : Bool) (c : Caller) (e : Event)
    (run : List (Caller × Event)) (he : e.isCoordinator = false) :
    mutexRespected locked ((c, e) :: run) = mutexRespected locked run := by
  have h1 : e ≠ .lock := by intro h; subst h; simp [Event.isCoordinator] at he
  have h2 : e ≠ .unlock := by intro h; subst h; simp [Event.isCoordinator] at he
  simp [mutexRespected, h1, h2]

theorem first_holds_lock (ra rb : List Event) (hra : ∀ e ∈ ra, e.isCoordinator = true)
    (s : List Event) (run : List (Caller × Event))
    (hs : ∀ e ∈ s, e.isCoordinator = false)
    (hi : isInterleaving (s ++ .unlock :: ra) (.lock :: rb) run = true)
    (hm : mutexRespected true run = true) :
    ∃ pre post, run = pre ++ (Caller.first, Event.unlock) :: post ∧
      (∀ x ∈ pre, x.2.isCoordinator = false → x.1 = .first) ∧
      (∀ x ∈ post, x.2.isCoordinator = false → x.1 = .second) := by
  induction run generalizing s with
  | nil => cases s <;> simp [isInterleaving] at hi
  | cons y run ih =>
    obtain ⟨c, e⟩ := y
    cases c with
    | second =>
      simp only [isInterleaving, Bool.and_eq_true, decide_eq_true_eq] at hi
      obtain ⟨he, _⟩ := hi
      subst he
      simp [mutexRespected] at hm
    | first =>
      cases s with
      | nil =>
        simp only [List.nil_append, isInterleaving, Bool.and_eq_true, decide_eq_true_eq] at hi
        obtain ⟨he, hi'⟩ := hi
        subst he
        refine ⟨[], run, rfl, by simp, ?_⟩
        intro x hx hstep
        have hmem := isInterleaving_mem ra (.lock :: rb) run hi' x hx
        obtain ⟨c, e⟩ := x
        cases c with
        | second => rfl
        | first =>
          have := hra e (hmem.1 rfl)
          simp only at hstep
          rw [this] at hstep
          cases hstep
      | cons e0 s' =>
        simp only [List.cons_append, isInterleaving, Bool.and_eq_true, decide_eq_true_eq] at hi
        obtain ⟨he, hi'⟩ := hi
        subst he
        have he0 := hs e (List.mem_cons_self _ _)
        rw [mutexRespected_step true .first e run he0] at hm
        obtain ⟨pre, post, hrun, hpre, hpost⟩ :=
          ih s' (fun x hx => hs x (List.mem_cons_of_mem _ hx)) hi' hm
        refine ⟨(.first, e) :: pre, post, by rw [hrun]; rfl, ?_, hpost⟩
        intro x hx hstep
        rcases List.mem_cons.1 hx with rfl | hx
        · rfl
        · exact hpre x hx hstep

theorem second_holds_lock (ra rb : List Event) (hrb : ∀ e ∈ rb, e.isCoordinator = true)
    (s : List Event) (run : List (Caller × Event))
    (hs : ∀ e ∈ s, e.isCoordinator = false)
    (hi : isInterleaving (.lock :: ra) (s ++ .unlock :: rb) run = true)
    (hm : mutexRespected true run = true) :
    ∃ pre post, run = pre ++ (Caller.second, Event.unlock) :: post ∧
      (∀ x ∈ pre, x.2.isCoordinator = false → x.1 = .second) ∧
      (∀ x ∈ post, x.2.isCoordinator = false → x.1 = .first) := by
  induction run generalizing s with
  | nil => cases s <;> simp [isInterleaving] at hi
  | cons y run ih =>
    obtain ⟨c, e⟩ := y
    cases c with
    | first =>
      simp only [isInterleaving, Bool.and_eq_true, decide_eq_true_eq] at hi
      obtain ⟨he, _⟩ := hi
      subst he
      simp [mutexRespected] at hm
    | second =>
      cases s with
      | nil =>
        simp only [List.nil_append, isInterleaving, Bool.and_eq_true, decide_eq_true_eq] at hi
        obtain ⟨he, hi'⟩ := hi
        subst he
        refine ⟨[], run, rfl, by simp, ?_⟩
        intro x hx hstep
        have hmem := isInterleaving_mem (.lock :: ra) rb run hi' x hx
        obtain ⟨c, e⟩ := x
        cases c with
        | first => rfl
        | second =>
          have := hrb e (hmem.2 rfl)
          simp only at hstep
          rw [this] at hstep
          cases hstep
      | cons e0 s' =>
        simp only [List.cons_append, isInterleaving, Bool.and_eq_true, decide_eq_true_eq] at hi
        obtain ⟨he, hi'⟩ := hi
        subst he
        have he0 := hs e (List.mem_cons_self _ _)
        rw [mutexRespected_step true .second e run he0] at hm
        obtain ⟨pre, post, hrun, hpre, hpost⟩ :=
          ih s' (fun x hx => hs x (List.mem_cons_of_mem _ hx)) hi' hm
        refine ⟨(.second, e) :: pre, post, by rw [hrun]; rfl, ?_, hpost⟩
        intro x hx hstep
        rcases List.mem_cons.1 hx with rfl | hx
        · rfl
        · exact hpre x hx hstep

/-! ### Transform runner -/

/-- C1: the run of a transform that exits with code `c` is classified success
(the variable `success` of `runUserCode` is true) exactly when `c = 0` or `c` is
in the accepted return codes, and failure otherwise; with the accepted codes
`{0, 3}` exit code 3 is success, exit code 1 is failure and exit code 0 is
success. -/
theorem runUserCode_exit_classification (t : Transform) (c : Nat) :
    (runSuccess t (exitResult c) = true ↔ (c = 0 ∨ (c : Int) ∈ t.AcceptReturnCode)) ∧
    (runSuccess t (exitResult c) = false ↔ ¬ (c = 0 ∨ (c : Int) ∈ t.AcceptReturnCode)) ∧
    runSuccess { t with AcceptReturnCode := [0, 3] } (exitResult 3) = true ∧
    runSuccess { t with AcceptReturnCode := [0, 3] } (exitResult 1) = false ∧
    runSuccess { t with AcceptReturnCode := [0, 3] } (exitResult 0) = true := by
  have h := runSuccess_exitResult t c
  refine ⟨h, ?_, ?_, ?_, ?_⟩
  · rw [← h]; simp
  · exact (runSuccess_exitResult _ 3).2 (Or.inr (by simp))
  · have := runSuccess_exitResult { t with AcceptReturnCode := [0, 3] } 1
    cases hb : runSuccess { t with AcceptReturnCode := [0, 3] } (exitResult 1) with
    | false => rfl
    | true => exact absurd (this.1 hb) (by simp)
  · exact (runSuccess_exitResult _ 0).2 (Or.inl rfl)

/-- C2, as stated, fails: when the command cannot be started, and when the
transform is killed by a signal, `runUserCode` returns nil, not an error, and
`Process` returns a tag. -/
theorem runUserCode_unclassified_returns_nil :
    (exWorldNoExec.Run "sh" [] "cp /pfs/in0/* /pfs/out\n").map RunError.noExitCode = some true ∧
    (runUserCode exDeps exWorldNoExec exPipeline).2 = .ret none ∧
    (Process exDeps exWorldNoExec exPipeline exRequest).2 = .ret (some ⟨"h0h1"⟩, none) ∧
    (exWorldKilled.Run "sh" [] "cp /pfs/in0/* /pfs/out\n").map RunError.noExitCode = some true ∧
    (runUserCode exDeps exWorldKilled exPipeline).2 = .ret none ∧
    (Process exDeps exWorldKilled exPipeline exRequest).2 = .ret (some ⟨"h0h1"⟩, none) := by
  refine ⟨by decide, by decide, by decide, by decide, by decide, by decide⟩

/-- C2, amended: when the output directory could be created and the launch of
the transform ends without an exit code of the process (it could not be started,
or it was killed by a signal), `runUserCode` returns a nil error; the error is
only written to standard error (always when the command could not be started;
for a signal when -1 is not an accepted return code), and `Process` returns the
tag whenever the download and the upload succeed. -/
theorem runUserCode_unclassified_only_logged {τ φ : Type} (d : Deps τ φ) (w : World)
    (pi : PipelineInfo) (name : String) (args : List String) (err : RunError)
    (hm : w.MkdirAll d.PPSOutputPath 438 = none)
    (hc : pi.Transform.Cmd = name :: args)
    (hr : w.Run name args ("\n".intercalate pi.Transform.Stdin ++ "\n") = some err)
    (hn : err.noExitCode = true) :
    (runUserCode d w pi).2 = .ret none ∧
    (runSuccess pi.Transform (some err) = false →
      (runUserCode d w pi).1 =
        [.mkdirAll d.PPSOutputPath 438,
         .run name args ("\n".intercalate pi.Transform.Stdin ++ "\n"),
         .stderr ("Error from exec: " ++ err.Error ++ "\n")]) ∧
    ((∃ msg, err = .otherError msg) ∨ (-1 : Int) ∉ pi.Transform.AcceptReturnCode →
      runSuccess pi.Transform (some err) = false) ∧
    (∀ (req : ProcessRequest) (tag : String),
      (downloadData d w pi req.Data).2 = .ret none →
      (uploadOutput d w pi req.Data).2 = .ret (.ok tag) →
      (Process d w pi req).2 = .ret (some { Tag := tag }, none)) := by
  have hrun := runUserCode_of_run d w pi name args hm hc
  have h2 : (runUserCode d w pi).2 = .ret none := by rw [hrun]
  refine ⟨h2, ?_, ?_, ?_⟩
  · intro hs
    rw [hrun, hr]
    simp [hs]
  · intro h
    cases err with
    | otherError msg => rfl
    | exitError sys msg =>
      cases sys with
      | other => rfl
      | waitStatus status =>
        cases status with
        | exited code => simp [RunError.noExitCode] at hn
        | signaled sig =>
          rcases h with ⟨m, hm'⟩ | h
          · cases hm'
          · simp only [runSuccess, acceptLoop_eq, WaitStatus.ExitStatus]
            simpa using h
  · intro req tag h1 h3
    rw [Process_result, processBody_upload d w pi req h1 h2]
    simp only [h3]

/-- C2, amended, at a concrete input: the command that cannot be started in
`exWorldNoExec`. -/
theorem runUserCode_unclassified_only_logged_witness :
    (runUserCode exDeps exWorldNoExec exPipeline).2 = .ret none ∧
    (Process exDeps exWorldNoExec exPipeline exRequest).2 = .ret (some ⟨"h0h1"⟩, none) :=
  have h := runUserCode_unclassified_only_logged exDeps exWorldNoExec exPipeline "sh" []
    (.otherError "exec: \"sh\": executable file not found in $PATH") rfl rfl rfl rfl
  ⟨h.1, h.2.2.2 exRequest "h0h1" (by decide) (by rfl)⟩

/-- C4: for a datum that is index-aligned with the pipeline inputs,
`downloadData` calls `Pull` for the indices 0, 1, 2, ... in that order, call `i`
with destination `<PPSInputPrefix>/<Inputs[i].Name>`, file info `data[i]` and
flag `Inputs[i].Lazy`. If `k` is the first index whose call fails, exactly the
calls `0..k` are made and that call's error is returned; if no call fails, all
calls are made and nil is returned. -/
theorem downloadData_fail_fast {τ φ : Type} (d : Deps τ φ) (w : World) (pi : PipelineInfo)
    (data : List PfsFileInfo) (hlen : data.length = pi.Inputs.length) :
    (∀ (k : Nat) (err : GoError),
      (∀ r ∈ (List.zipWith (fetchResult d w) data pi.Inputs).take k, r = none) →
      (List.zipWith (fetchResult d w) data pi.Inputs)[k]? = some (some err) →
      downloadData d w pi data =
        ((List.zipWith (fetchCall d) data pi.Inputs).take (k + 1), .ret (some err))) ∧
    ((∀ r ∈ List.zipWith (fetchResult d w) data pi.Inputs, r = none) →
      downloadData d w pi data = (List.zipWith (fetchCall d) data pi.Inputs, .ret none)) := by
  constructor
  · intro k err hok hk
    have := downloadFrom_fails d w pi data 0 k err (by simpa using hok) (by simpa using hk)
    simpa [downloadData] using this
  · intro hok
    have := downloadFrom_succeeds d w pi data 0 (by simp [hlen]) (by simpa using hok)
    simpa [downloadData] using this

/-- C4 at a concrete input: five inputs, of which the one at index 2 cannot be
pulled; the calls for the indices 0, 1, 2 are made and the error is returned. -/
theorem downloadData_fail_fast_witness :
    exRequest5.Data.length = exPipeline5.Inputs.length ∧
    downloadData exDeps exWorldPullFails exPipeline5 exRequest5.Data =
      ([.pull "/pfs/in0" ⟨"/0", "h0"⟩ false, .pull "/pfs/in1" ⟨"/1", "h1"⟩ true,
        .pull "/pfs/in2" ⟨"/2", "h2"⟩ false], .ret (some ⟨"pull: file not found"⟩)) :=
  ⟨rfl, (downloadData_fail_fast exDeps exWorldPullFails exPipeline5 exRequest5.Data rfl).1 2
    ⟨"pull: file not found"⟩ (by decide) (by decide)⟩

/-! ### Process coordinator -/

/-- C5: `Process` runs the download, the run and the upload (with its commit) in
that order and stops at the first error. An error of `downloadData` is returned
unmodified with a nil response, and no event of the run or of the upload occurs;
an error of `runUserCode` is returned unmodified with a nil response, and no
event of the upload occurs; an error of `uploadOutput` is returned unmodified
with a nil response; when all three succeed the response carries the tag
returned by `uploadOutput`, the error is nil, and the trace is the lock, the
events of the three steps in order, the unlock and the log record. -/
theorem Process_short_circuit {τ φ : Type} (d : Deps τ φ) (w : World) (pi : PipelineInfo)
    (req : ProcessRequest) :
    (∀ err, (downloadData d w pi req.Data).2 = .ret (some err) →
      (Process d w pi req).2 = .ret (none, some err) ∧
      (Process d w pi req).1 =
        .lock :: (downloadData d w pi req.Data).1 ++
          [.unlock, .log req none (some err) (w.Since w.Now)] ∧
      ∀ e ∈ (Process d w pi req).1, e.isRunStep = false ∧ e.isUploadStep = false) ∧
    ((downloadData d w pi req.Data).2 = .ret none →
      ∀ err, (runUserCode d w pi).2 = .ret (some err) →
        (Process d w pi req).2 = .ret (none, some err) ∧
        (Process d w pi req).1 =
          .lock :: ((downloadData d w pi req.Data).1 ++ (runUserCode d w pi).1) ++
            [.unlock, .log req none (some err) (w.Since w.Now)] ∧
        ∀ e ∈ (Process d w pi req).1, e.isUploadStep = false) ∧
    ((downloadData d w pi req.Data).2 = .ret none → (runUserCode d w pi).2 = .ret none →
      ∀ err, (uploadOutput d w pi req.Data).2 = .ret (.error err) →
        (Process d w pi req).2 = .ret (none, some err) ∧
        (Process d w pi req).1 =
          .lock :: ((downloadData d w pi req.Data).1 ++ (runUserCode d w pi).1 ++
            (uploadOutput d w pi req.Data).1) ++
            [.unlock, .log req none (some err) (w.Since w.Now)]) ∧
    ((downloadData d w pi req.Data).2 = .ret none → (runUserCode d w pi).2 = .ret none →
      ∀ tag, (uploadOutput d w pi req.Data).2 = .ret (.ok tag) →
        (Process d w pi req).2 = .ret (some { Tag := tag }, none) ∧
        (Process d w pi req).1 =
          .lock :: ((downloadData d w pi req.Data).1 ++ (runUserCode d w pi).1 ++
            (uploadOutput d w pi req.Data).1) ++
            [.unlock, .log req (some { Tag := tag }) none (w.Since w.Now)]) := by
  have hpull : ∀ e ∈ (downloadData d w pi req.Data).1, e.isPull = true :=
    downloadFrom_events d w pi 0 req.Data
  have hrun := runUserCode_events d w pi
  refine ⟨?_, ?_, ?_, ?_⟩
  · intro err h1
    have hb := processBody_download_err d w pi req err h1
    have ht := Process_trace d w pi req (none, some err) (by rw [hb])
    rw [hb] at ht
    refine ⟨by rw [Process_result, hb], ht, ?_⟩
    intro e he
    rw [ht] at he
    simp only [List.cons_append, List.mem_cons, List.mem_append, List.not_mem_nil,
      or_false] at he
    rcases he with rfl | he | rfl | rfl
    · exact ⟨rfl, rfl⟩
    · have := hpull e he
      cases e <;> simp_all [Event.isPull, Event.isRunStep, Event.isUploadStep]
    · exact ⟨rfl, rfl⟩
    · exact ⟨rfl, rfl⟩
  · intro h1 err h2
    have hb := processBody_run_err d w pi req err h1 h2
    have ht := Process_trace d w pi req (none, some err) (by rw [hb])
    rw [hb] at ht
    refine ⟨by rw [Process_result, hb], ht, ?_⟩
    intro e he
    rw [ht] at he
    simp only [List.cons_append, List.mem_cons, List.mem_append, List.not_mem_nil,
      or_false] at he
    rcases he with rfl | (he | he) | rfl | rfl
    · rfl
    · have := hpull e he
      cases e <;> simp_all [Event.isPull, Event.isUploadStep]
    · have := hrun e he
      cases e <;> simp_all [Event.isRunStep, Event.isUploadStep]
    · rfl
    · rfl
  · intro h1 h2 err h3
    have hb := processBody_upload d w pi req h1 h2
    simp only [h3] at hb
    have ht := Process_trace d w pi req (none, some err) (by rw [hb])
    rw [hb] at ht
    exact ⟨by rw [Process_result, hb], ht⟩
  · intro h1 h2 tag h3
    have hb := processBody_upload d w pi req h1 h2
    simp only [h3] at hb
    have ht := Process_trace d w pi req (some { Tag := tag }, none) (by rw [hb])
    rw [hb] at ht
    exact ⟨by rw [Process_result, hb], ht⟩

/-- C5 at a concrete input: the input at index 2 of 5 cannot be pulled; the
inputs 0 to 2 were requested, nothing was run or uploaded, and the error is
returned without a response. -/
theorem Process_short_circuit_witness :
    (downloadData exDeps exWorldPullFails exPipeline5 exRequest5.Data).2 =
      .ret (some ⟨"pull: file not found"⟩) ∧
    (Process exDeps exWorldPullFails exPipeline5 exRequest5).2 =
      .ret (none, some ⟨"pull: file not found"⟩) ∧
    (Process exDeps exWorldPullFails exPipeline5 exRequest5).1 =
      [.lock, .pull "/pfs/in0" ⟨"/0", "h0"⟩ false, .pull "/pfs/in1" ⟨"/1", "h1"⟩ true,
        .pull "/pfs/in2" ⟨"/2", "h2"⟩ false, .unlock,
        .log exRequest5 none (some ⟨"pull: file not found"⟩) 7] :=
  have h := (Process_short_circuit exDeps exWorldPullFails exPipeline5 exRequest5).1
    ⟨"pull: file not found"⟩ (by decide)
  ⟨by decide, h.1, h.2.1⟩

/-- C9, as stated, fails: in a successful call and in a failing call alike the
lock is released first and the log record is emitted after it, as the last
event of the call. -/
theorem Process_log_not_before_unlock :
    (Process exDeps exWorld exPipeline exRequest).1 =
      [.lock, .pull "/pfs/in0" ⟨"/x", "h0"⟩ false, .pull "/pfs/in1" ⟨"/y", "h1"⟩ true,
        .mkdirAll "/pfs/out" 438, .run "sh" [] "cp /pfs/in0/* /pfs/out\n",
        .treePutDir "dir" none, .osOpen "/pfs/out/a.txt" none,
        .putBlock ⟨"/pfs/out/a.txt", [104, 105]⟩ none, .treePutFile "a.txt" [⟨"b0", 0, 2⟩] none,
        .osClose ⟨"/pfs/out/a.txt", [104, 105]⟩ none,
        .putObject [3, 5] "h0h1", .unlock, .log exRequest (some ⟨"h0h1"⟩) none 7] ∧
    ¬ ((Process exDeps exWorld exPipeline exRequest).1.indexOf
          (.log exRequest (some ⟨"h0h1"⟩) none 7) <
        (Process exDeps exWorld exPipeline exRequest).1.indexOf .unlock) ∧
    ¬ ((Process exDeps exWorldPullFails exPipeline5 exRequest5).1.indexOf
          (.log exRequest5 none (some ⟨"pull: file not found"⟩) 7) <
        (Process exDeps exWorldPullFails exPipeline5 exRequest5).1.indexOf .unlock) := by
  refine ⟨by decide, by decide, by decide⟩

/-- C9, amended: for every call to `Process` that returns (with a response or
with an error) or panics, the trace is: the lock is acquired, the steps run,
the lock is released, and only then exactly one log record is emitted, carrying
the request, the response and the error that are returned (both nil on a panic)
and the elapsed duration; the log record is emitted after the lock is
released. -/
theorem Process_unlock_then_log {τ φ : Type} (d : Deps τ φ) (w : World) (pi : PipelineInfo)
    (req : ProcessRequest) (h : (Process d w pi req).2 ≠ .crash) :
    ∃ steps resp err,
      (Process d w pi req).1 =
        .lock :: steps ++ [.unlock, .log req resp err (w.Since w.Now)] ∧
      (∀ e ∈ steps, e.isCoordinator = false) ∧
      (∀ r, (Process d w pi req).2 = .ret r → r = (resp, err)) ∧
      ((Process d w pi req).2 = .panic → resp = none ∧ err = none) := by
  have hev := processBody_events d w pi req
  unfold Process at h ⊢
  generalize processBody d w pi req = pb at h hev ⊢
  rcases pb with ⟨ev, ⟨resp, err⟩ | _ | _⟩
  · refine ⟨ev, resp, err, rfl, hev, ?_, ?_⟩
    · intro r hr; cases hr; rfl
    · intro hp; cases hp
  · refine ⟨ev, none, none, rfl, hev, ?_, ?_⟩
    · intro r hr; cases hr
    · intro _; exact ⟨rfl, rfl⟩
  · exact absurd rfl h

/-- C9, amended, at a concrete input: the failing call of `exWorldPullFails`. -/
theorem Process_unlock_then_log_witness :
    (Process exDeps exWorldPullFails exPipeline5 exRequest5).2 ≠ .crash ∧
    ∃ steps resp err,
      (Process exDeps exWorldPullFails exPipeline5 exRequest5).1 =
        .lock :: steps ++ [.unlock, .log exRequest5 resp err 7] ∧
      (∀ e ∈ steps, e.isCoordinator = false) ∧
      (∀ r, (Process exDeps exWorldPullFails exPipeline5 exRequest5).2 = .ret r →
        r = (resp, err)) ∧
      ((Process exDeps exWorldPullFails exPipeline5 exRequest5).2 = .panic →
        resp = none ∧ err = none) :=
  ⟨by decide, Process_unlock_then_log exDeps exWorldPullFails exPipeline5 exRequest5 (by decide)⟩

/-! ### Output tree builder and committer -/

/-- C8: when the operations on every entry of the listing of the output root
succeed (relative path `rel path`, block references `blockRef path`), the
insertions `uploadOutput` makes into the hash tree are, up to their order,
exactly those the listing asks for: none for the output root, one directory
insertion at the relative path for each directory, one file insertion at the
relative path with the block references of the file for each file. Hence the
number of file insertions and of block puts is the number of files, and the
number of directory insertions is the number of directories other than the
root; and no goroutine panics. The insertions are made into the one tree that
is finished: when `uploadOutput` succeeds, the object it puts under the tag is
the serialization of the finished tree obtained from the new hash tree by these
insertions, in the order of the trace. -/
theorem uploadOutput_insertions {τ φ : Type} (d : Deps τ φ) (w : World) (pi : PipelineInfo)
    (data : List PfsFileInfo) (rel : String → String) (blockRef : String → List BlockRef)
    (h : ∀ call ∈ w.Walk d.PPSOutputPath, EntryOpsSucceed d w rel blockRef call) :
    ((uploadOutput d w pi data).1.filterMap Event.insertion).Perm
      ((w.Walk d.PPSOutputPath).filterMap (specInsertion d.PPSOutputPath rel blockRef)) ∧
    ((uploadOutput d w pi data).1.filterMap Event.insertion).countP Insertion.isFile =
      (w.Walk d.PPSOutputPath).countP (WalkCall.isFileEntry d.PPSOutputPath) ∧
    ((uploadOutput d w pi data).1.filterMap Event.insertion).countP Insertion.isDir =
      (w.Walk d.PPSOutputPath).countP (WalkCall.isDirEntry d.PPSOutputPath) ∧
    (uploadOutput d w pi data).1.countP Event.isPutBlock =
      (w.Walk d.PPSOutputPath).countP (WalkCall.isFileEntry d.PPSOutputPath) ∧
    (uploadOutput d w pi data).2 ≠ .crash ∧
    (∀ tag, (uploadOutput d w pi data).2 = .ret (.ok tag) →
      ∃ finTree bytes ev,
        d.Finish (applyInsertions d d.NewHashTree
          ((uploadOutput d w pi data).1.filterMap Event.insertion)) = .ok finTree ∧
        d.Serialize finTree = .ok bytes ∧
        (uploadOutput d w pi data).1 = ev ++ [.putObject bytes tag]) := by
  have hp := schedule_perm w.sched (w.Walk d.PPSOutputPath)
  have hs : ∀ call ∈ schedule w.sched (w.Walk d.PPSOutputPath),
      EntryOpsSucceed d w rel blockRef call := fun c hc => h c (hp.mem_iff.1 hc)
  obtain ⟨⟨r, hr⟩, hins, hcnt⟩ := runTasks_of_success d w rel blockRef
    (schedule w.sched (w.Walk d.PPSOutputPath)) d.NewHashTree none hs
  obtain ⟨tail, htr, htail, _⟩ := uploadOutput_trace d w pi data
  obtain ⟨ht1, ht2⟩ := filterMap_insertion_putObject tail htail
  have hperm : ((uploadOutput d w pi data).1.filterMap Event.insertion).Perm
      ((w.Walk d.PPSOutputPath).filterMap (specInsertion d.PPSOutputPath rel blockRef)) := by
    rw [htr, List.filterMap_append, ht1, List.append_nil, hins]
    exact hp.filterMap _
  have hc := specInsertion_counts d.PPSOutputPath rel blockRef (w.Walk d.PPSOutputPath)
  refine ⟨hperm, ?_, ?_, ?_, ?_, ?_⟩
  · rw [hperm.countP_eq, hc.1]
  · rw [hperm.countP_eq, hc.2]
  · rw [htr, List.countP_append, ht2, Nat.add_zero, hcnt]
    exact hp.countP_eq _
  · rw [uploadOutput_unfold]
    generalize runTasks d w (schedule w.sched (w.Walk d.PPSOutputPath)) d.NewHashTree none = rt
      at hr ⊢
    rcases rt with ⟨ev, tree', o⟩
    cases hr
    rcases r with _ | err
    · simp only
      cases d.Finish tree' with
      | error err => simp
      | ok finTree =>
        simp only
        cases d.Serialize finTree with
        | error err => simp
        | ok treeBytes =>
          simp only
          cases d.HashDatum data pi with
          | error err => simp
          | ok hash =>
            simp only
            cases w.PutObject treeBytes hash <;> simp
    · simp
  · intro tag hok
    have htask : ∀ (call : WalkCall) (tree : τ), (entryTask d w call tree).2.1 =
        applyInsertions d tree ((entryTask d w call tree).1.filterMap Event.insertion) := by
      intro call tree
      unfold entryTask applyInsertions
      by_cases hroot : call.path = d.PPSOutputPath
      · simp [hroot]
      · cases hrel : d.Rel d.PPSOutputPath call.path with
        | error err => simp [hroot]
        | ok relPath =>
          cases hinfo : call.info with
          | none => simp [hroot]
          | some info =>
            by_cases hdir : info.IsDir = true
            · simp [hroot, hdir, Event.insertion, applyInsertion]
            · cases hopen : w.Open call.path with
              | error err => simp [hroot, hdir, Event.insertion]
              | ok f =>
                cases hput : w.PutBlock f with
                | error err => simp [hroot, hdir, hput, Event.insertion]
                | ok blockRefs => simp [hroot, hdir, hput, Event.insertion, applyInsertion]
    have htree : ∀ (calls : List WalkCall) (tree : τ) (gerr : Option GoError),
        (runTasks d w calls tree gerr).2.1 =
          applyInsertions d tree
            ((runTasks d w calls tree gerr).1.filterMap Event.insertion) := by
      intro calls
      induction calls with
      | nil => intro tree gerr; simp [runTasks, applyInsertions]
      | cons call calls ih =>
        intro tree gerr
        unfold runTasks
        have h1 := htask call tree
        generalize entryTask d w call tree = rt at h1 ⊢
        rcases rt with ⟨ev, tree', r | _ | _⟩
        · simp only at h1 ⊢
          rw [ih, List.filterMap_append, h1]
          simp [applyInsertions, List.foldl_append]
        · exact h1
        · exact h1
    obtain ⟨finTree, bytes, _, hfin, hser, _, _, htr'⟩ := uploadOutput_ok_inv d w pi data tag hok
    refine ⟨finTree, bytes, _, ?_, hser, htr'⟩
    rw [htr, List.filterMap_append, ht1, List.append_nil, ← htree]
    exact hfin

/-- C8 at a concrete input: the output root of `exWorld` holds one directory and
one file; one directory insertion, one file insertion and one block put are
made, and the object put is the serialization of the tree holding `dir` and
`a.txt`. -/
theorem uploadOutput_insertions_witness :
    ((uploadOutput exDeps exWorld exPipeline exRequest.Data).1.filterMap Event.insertion).Perm
      [.dir "dir", .file "a.txt" [⟨"b0", 0, 2⟩]] ∧
    (uploadOutput exDeps exWorld exPipeline exRequest.Data).1.countP Event.isPutBlock = 1 ∧
    applyInsertions exDeps exDeps.NewHashTree [.dir "dir", .file "a.txt" [⟨"b0", 0, 2⟩]] =
      [("dir", true), ("a.txt", false)] ∧
    exDeps.Serialize [("dir", true), ("a.txt", false)] = .ok [3, 5] ∧
    (uploadOutput exDeps exWorld exPipeline exRequest.Data).1.getLast? =
      some (.putObject [3, 5] "h0h1") ∧
    (∃ ev, (uploadOutput exDeps exWorld exPipeline exRequest.Data).1 =
      ev ++ [.putObject [3, 5] "h0h1"]) := by
  have h := uploadOutput_insertions exDeps exWorld exPipeline exRequest.Data
    (fun path => if path = "/pfs/out/dir" then "dir" else "a.txt")
    (fun _ => [⟨"b0", 0, 2⟩])
    (by
      intro call hc
      simp only [exWorld, exDeps, List.mem_cons, List.mem_singleton, List.not_mem_nil,
        or_false] at hc
      rcases hc with rfl | rfl | rfl
      · exact Or.inl rfl
      · exact Or.inr ⟨rfl, Or.inl rfl⟩
      · exact Or.inr ⟨rfl, Or.inr ⟨rfl, ⟨"/pfs/out/a.txt", [104, 105]⟩, rfl, rfl⟩⟩)
  obtain ⟨finTree, bytes, ev, hfin, hser, htr⟩ := h.2.2.2.2.2 "h0h1" rfl
  have h1 : finTree = [("dir", true), ("a.txt", false)] := (Except.ok.inj hfin).symm
  subst h1
  have h2 : bytes = [3, 5] := (Except.ok.inj hser).symm
  subst h2
  exact ⟨h.1, h.2.2.2.1, rfl, rfl, rfl, ev, htr⟩

/-- The file part of C6: if an operation on a file entry fails (the open, the
block put, the insertion of the file into the hash tree or the close returns an
error), then `uploadOutput` does not return a fingerprint, and no object is put
to the store. -/
theorem uploadOutput_file_error_aborts {τ φ : Type} (d : Deps τ φ) (w : World)
    (pi : PipelineInfo) (data : List PfsFileInfo)
    (h : ∃ e ∈ (uploadOutput d w pi data).1, e.isFailedFileOp = true) :
    (∀ tag, (uploadOutput d w pi data).2 ≠ .ret (.ok tag)) ∧
    (∀ e ∈ (uploadOutput d w pi data).1, e.isPutObject = false) := by
  obtain ⟨tail, htr, htail, hfail⟩ := uploadOutput_trace d w pi data
  obtain ⟨e, he, hf⟩ := h
  have hmem : e ∈ (runTasks d w (schedule w.sched (w.Walk d.PPSOutputPath))
      d.NewHashTree none).1 := by
    rw [htr, List.mem_append] at he
    rcases he with he | he
    · exact he
    · have := htail e he
      cases e <;> simp_all [Event.isPutObject, Event.isFailedFileOp]
  have hne := runTasks_failed d w (schedule w.sched (w.Walk d.PPSOutputPath))
    d.NewHashTree none (Or.inr ⟨e, hmem, hf⟩)
  obtain ⟨ht, hno⟩ := hfail hne
  refine ⟨hno, ?_⟩
  rw [htr, ht, List.append_nil]
  exact runTasks_not_putObject d w _ _ _

/-- The file part of C6 at a concrete input: the file `a.txt` cannot be opened. -/
theorem uploadOutput_file_error_aborts_witness :
    uploadOutput exDeps exWorldOpenFails exPipeline exRequest.Data =
      ([.treePutDir "dir" none, .osOpen "/pfs/out/a.txt" (some ⟨"open: permission denied"⟩)],
        .ret (.error ⟨"open: permission denied"⟩)) ∧
    (∀ tag, (uploadOutput exDeps exWorldOpenFails exPipeline exRequest.Data).2 ≠
      .ret (.ok tag)) :=
  ⟨rfl, (uploadOutput_file_error_aborts exDeps exWorldOpenFails exPipeline exRequest.Data
    ⟨.osOpen "/pfs/out/a.txt" (some ⟨"open: permission denied"⟩), by decide, rfl⟩).1⟩

/-- C6, the directory part, on the code: the insertion of the directory `dir`
into the hash tree fails with a path conflict, and `uploadOutput` still returns
the fingerprint with a nil error and puts the manifest to the store under it;
`Process` returns the tag. -/
theorem uploadOutput_ignores_PutDir_error :
    (exDepsDirConflict.PutDir exDepsDirConflict.NewHashTree "dir").2 =
      some ⟨"path conflict"⟩ ∧
    uploadOutput exDepsDirConflict exWorld exPipeline exRequest.Data =
      ([.treePutDir "dir" (some ⟨"path conflict"⟩), .osOpen "/pfs/out/a.txt" none,
        .putBlock ⟨"/pfs/out/a.txt", [104, 105]⟩ none, .treePutFile "a.txt" [⟨"b0", 0, 2⟩] none,
        .osClose ⟨"/pfs/out/a.txt", [104, 105]⟩ none, .putObject [5] "h0h1"],
        .ret (.ok "h0h1")) ∧
    (∃ e ∈ (uploadOutput exDepsDirConflict exWorld exPipeline exRequest.Data).1,
      e.isFailedDirOp = true) ∧
    (Process exDepsDirConflict exWorld exPipeline exRequest).2 =
      .ret (some ⟨"h0h1"⟩, none) := by
  refine ⟨rfl, rfl, ⟨.treePutDir "dir" (some ⟨"path conflict"⟩), by decide, rfl⟩, rfl⟩

/-- C7: two runs of `uploadOutput` for the same datum and the same pipeline info
that both succeed return the same tag, whatever the two worlds (the listing of
the output root, the schedule, the block references), the two hash tree
libraries and the manifest bytes are: the tag is `HashDatum(data, pipelineInfo)`.
It is the key of the one object put, whose content is the serialized finished
tree, and it is the tag of the response of `Process`. -/
theorem fingerprint_of_datum_and_pipeline {τ φ τ' φ' : Type} (d : Deps τ φ)
    (d' : Deps τ' φ') (w w' : World) (pi : PipelineInfo) (data : List PfsFileInfo)
    (tag tag' : String)
    (hH : d.HashDatum = d'.HashDatum)
    (h : (uploadOutput d w pi data).2 = .ret (.ok tag))
    (h' : (uploadOutput d' w' pi data).2 = .ret (.ok tag')) :
    tag = tag' ∧
    d.HashDatum data pi = .ok tag ∧
    (∃ ev tree finTree bytes,
      d.Finish tree = .ok finTree ∧ d.Serialize finTree = .ok bytes ∧
      (uploadOutput d w pi data).1 = ev ++ [.putObject bytes tag] ∧
      ∀ e ∈ ev, e.isPutObject = false) ∧
    (∀ resp err, (Process d w pi ⟨data⟩).2 = .ret (some resp, err) → resp.Tag = tag) := by
  obtain ⟨finTree, bytes, _, hfin, hser, hhash, _, htr⟩ := uploadOutput_ok_inv d w pi data tag h
  obtain ⟨_, _, _, _, _, hhash', _, _⟩ := uploadOutput_ok_inv d' w' pi data tag' h'
  refine ⟨?_, hhash, ⟨_, _, finTree, bytes, hfin, hser, htr, ?_⟩, ?_⟩
  · rw [hH, hhash'] at hhash
    exact (Except.ok.inj hhash).symm
  · exact runTasks_not_putObject d w _ _ _
  · intro resp err hp
    have := (Process_some_inv d w pi ⟨data⟩ resp err hp).1
    rw [h] at this
    exact (Except.ok.inj (Outcome.ret.inj this)).symm

/-- C7 at a concrete input: two runs for the datum of `exRequest` with different
output roots, schedules, block references and hash tree libraries. -/
theorem fingerprint_of_datum_and_pipeline_witness :
    uploadOutput exDeps exWorld exPipeline exRequest.Data =
      ([.treePutDir "dir" none, .osOpen "/pfs/out/a.txt" none,
        .putBlock ⟨"/pfs/out/a.txt", [104, 105]⟩ none, .treePutFile "a.txt" [⟨"b0", 0, 2⟩] none,
        .osClose ⟨"/pfs/out/a.txt", [104, 105]⟩ none, .putObject [3, 5] "h0h1"],
        .ret (.ok "h0h1")) ∧
    uploadOutput exDepsDirConflict exWorldOther exPipeline exRequest.Data =
      ([.osOpen "/pfs/out/a" none, .putBlock ⟨"/pfs/out/a", [104, 105]⟩ none,
        .treePutFile "a" [⟨"b7", 0, 1⟩, ⟨"b8", 1, 2⟩] none,
        .osClose ⟨"/pfs/out/a", [104, 105]⟩ none, .putObject [1] "h0h1"],
        .ret (.ok "h0h1")) ∧
    exDeps.HashDatum exRequest.Data exPipeline = .ok "h0h1" :=
  ⟨rfl, rfl, (fingerprint_of_datum_and_pipeline exDeps exDepsDirConflict exWorld exWorldOther
    exPipeline exRequest.Data "h0h1" "h0h1" rfl rfl rfl).2.1⟩

/-! ### Serialized access -/

/-- C10, as stated, fails in its second clause: in this run of two concurrent
calls, which respects the mutex and in which the first call takes the lock
first, the second call pulls its first input before the first call has emitted
its log record, that is before the first call has returned. -/
theorem second_call_downloads_before_first_returns :
    isInterleaving (Process exDeps exWorld exPipeline exRequest).1
      (Process exDeps exWorld exPipeline exRequest).1 exRun = true ∧
    mutexRespected false exRun = true ∧
    exRun.head? = some (.first, .lock) ∧
    exRun.indexOf (Caller.second, Event.pull "/pfs/in0" ⟨"/x", "h0"⟩ false) = 13 ∧
    exRun.indexOf (Caller.first, Event.log exRequest (some ⟨"h0h1"⟩) none 7) = 14 ∧
    (Process exDeps exWorld exPipeline exRequest).1.getLast? =
      some (.log exRequest (some ⟨"h0h1"⟩) none 7) := by
  refine ⟨by decide, by decide, by decide, by decide, by decide, by decide⟩

/-- C10, amended: in every run of two concurrent calls to `Process` on the same
`APIServer` (neither taking the process down) that respects the mutex, the
download, run, upload and commit steps of the two calls do not interleave: one
of the calls makes all its steps before it releases the lock, and the other
call makes no step until that release. The log record and the return of the
first of them may come later. -/
theorem Process_calls_do_not_interleave {τ φ : Type} (d : Deps τ φ) (w1 w2 : World)
    (pi : PipelineInfo) (req1 req2 : ProcessRequest) (run : List (Caller × Event))
    (h1 : (Process d w1 pi req1).2 ≠ .crash) (h2 : (Process d w2 pi req2).2 ≠ .crash)
    (hi : isInterleaving (Process d w1 pi req1).1 (Process d w2 pi req2).1 run = true)
    (hm : mutexRespected false run = true) :
    ∃ c pre post, run = pre ++ (c, Event.unlock) :: post ∧
      (∀ x ∈ pre, x.2.isCoordinator = false → x.1 = c) ∧
      (∀ x ∈ post, x.2.isCoordinator = false → x.1 ≠ c) := by
  obtain ⟨s1, l1, ht1, hs1, hl1⟩ := Process_trace_shape d w1 pi req1 h1
  obtain ⟨s2, l2, ht2, hs2, hl2⟩ := Process_trace_shape d w2 pi req2 h2
  rw [ht1, ht2] at hi
  cases run with
  | nil => simp [isInterleaving] at hi
  | cons y run =>
    obtain ⟨c, e⟩ := y
    cases c with
    | first =>
      simp only [isInterleaving, Bool.and_eq_true, decide_eq_true_eq] at hi
      obtain ⟨he, hi'⟩ := hi
      subst he
      simp only [mutexRespected, if_true, Bool.not_false, Bool.true_and] at hm
      obtain ⟨pre, post, hrun, hpre, hpost⟩ :=
        first_holds_lock [l1] (s2 ++ .unlock :: [l2]) (by simpa using hl1) s1 run hs1 hi' hm
      refine ⟨.first, (.first, .lock) :: pre, post, by rw [hrun]; rfl, ?_, ?_⟩
      · intro x hx hstep
        rcases List.mem_cons.1 hx with rfl | hx
        · rfl
        · exact hpre x hx hstep
      · intro x hx hstep
        rw [hpost x hx hstep]
        decide
    | second =>
      simp only [isInterleaving, Bool.and_eq_true, decide_eq_true_eq] at hi
      obtain ⟨he, hi'⟩ := hi
      subst he
      simp only [mutexRespected, if_true, Bool.not_false, Bool.true_and] at hm
      obtain ⟨pre, post, hrun, hpre, hpost⟩ :=
        second_holds_lock (s1 ++ .unlock :: [l1]) [l2] (by simpa using hl2) s2 run hs2 hi' hm
      refine ⟨.second, (.second, .lock) :: pre, post, by rw [hrun]; rfl, ?_, ?_⟩
      · intro x hx hstep
        rcases List.mem_cons.1 hx with rfl | hx
        · rfl
        · exact hpre x hx hstep
      · intro x hx hstep
        rw [hpost x hx hstep]
        decide

/-- C10, amended, at a concrete input: the run `exRun` of two calls. -/
theorem Process_calls_do_not_interleave_witness :
    (Process exDeps exWorld exPipeline exRequest).2 ≠ .crash ∧
    isInterleaving (Process exDeps exWorld exPipeline exRequest).1
      (Process exDeps exWorld exPipeline exRequest).1 exRun = true ∧
    mutexRespected false exRun = true ∧
    ∃ c pre post, exRun = pre ++ (c, Event.unlock) :: post ∧
      (∀ x ∈ pre, x.2.isCoordinator = false → x.1 = c) ∧
      (∀ x ∈ post, x.2.isCoordinator = false → x.1 ≠ c) :=
  ⟨by decide, by decide, by decide,
    Process_calls_do_not_interleave exDeps exWorld exWorld exPipeline exRequest exRequest exRun
      (by decide) (by decide) (by decide) (by decide)⟩

end Worker
